import Mathlib

/-!
Verification of the adaptive hierarchical clustering and enrichment engine
of the thoughtflow repository, as a shallow embedding in Lean 4.

The embedding follows the Python sources:

* `src/core/services/clustering_service.py` (`ClusteringService`)
* `src/core/services/mindmap_service.py` (`MindmapService._recursive_cluster`)
* `src/core/models/node.py` (`MindmapNode`)
* `src/core/services/label_service.py` (`LabelGenerationService`)
* `src/infrastructure/llm/groq_client.py` (`GroqClient`)
* `src/mindmap/relationship_extractor.py` (`RelationshipExtractor`)
* `backend/src/core/tree_namer.py` (`TreeNamerService`)

Modelling conventions, used throughout:

* Python `str` is modelled as Lean `String` / `List Char`.  The Python string
  operations used by the sources (`strip`, `split`, `join`, `lower`,
  `startswith`, slicing) are re-implemented on `List Char` with Python's
  semantics; `str.lower` and the regex class `\w` are modelled on the ASCII
  alphabet actually used by the data flowing through these functions.
* Python `int` is `ℤ`/`ℕ` (Python integers are unbounded), and the single
  float multiplication `n_samples * ratio` is modelled over `ℚ`: for the
  configured ratio `0.15` the double-precision product `n * 0.15` truncates
  to the same integer as the exact rational product for every sample count
  that can occur (the relative error of the product is below 2⁻⁵³ of the
  nearest representable integer), so the rational model is exact here.
* External libraries (sklearn's `AgglomerativeClustering.fit_predict` and
  `cosine_similarity`, the Groq SDK, `json.loads`) are not code of this
  repository; they enter the model as explicit function parameters, with
  their documented contracts (one label per sample, cosine values bounded
  by 1) as named hypotheses where a theorem needs them.
* Fallible Python code is modelled with `Except`/`Option`; an uncaught
  Python exception is an `.error` value, and a `try/except` is a `match`.
* General recursion that Python bounds by the depth argument is given an
  explicit fuel parameter so that all definitions stay executable; the fuel
  needed is `max 1 maxDepthBase + 1 - depth`, and theorems either assume
  sufficient fuel or are conditional on a successful (`.ok`) build.
-/

/-! ## Python string primitives -/

/-- Python's whitespace class for `str.strip` / `str.split` (ASCII part:
space, tab, newline, carriage return, vertical tab, form feed). -/
def pyIsSpace (c : Char) : Bool :=
  c = ' ' || c = '\t' || c = '\n' || c = '\r' || c = Char.ofNat 11 || c = Char.ofNat 12

/-- Drop a trailing run of characters satisfying `p` (structural helper for
Python's `str.strip`). -/
def dropTrailing (p : Char → Bool) : List Char → List Char
  | [] => []
  | c :: cs =>
    if p c ∧ dropTrailing p cs = [] then [] else c :: dropTrailing p cs

/-- Python `str.strip()` on a character list: remove leading and trailing
whitespace. -/
def pyStrip (cs : List Char) : List Char :=
  dropTrailing pyIsSpace (cs.dropWhile pyIsSpace)

/-- One step of the word splitter: whitespace opens a (possibly empty) new
token, a non-whitespace character is prepended to the current token. -/
def wordStep (c : Char) (acc : List (List Char)) : List (List Char) :=
  if pyIsSpace c then [] :: acc
  else
    match acc with
    | [] => [[c]]
    | w :: rest => (c :: w) :: rest

/-- Raw tokens of Python `str.split()` including the empty tokens produced
by whitespace runs. -/
def wordToks (cs : List Char) : List (List Char) :=
  cs.foldr wordStep []

/-- Python `str.split()` with no argument: maximal runs of non-whitespace
characters, in order. -/
def pyWords (cs : List Char) : List (List Char) :=
  (wordToks cs).filter (fun w => ¬ w.isEmpty)

/-- Python `' '.join(words)`. -/
def joinSpace : List (List Char) → List Char
  | [] => []
  | [w] => w
  | w :: ws => w ++ ' ' :: joinSpace ws

/-! ## C1 — Adaptive Parameter Policy
(`ClusteringService.calculate_dynamic_params`, clustering_service.py 67-98) -/

/-- Python `int(q)` on a non-negative-or-negative rational: truncation toward
zero, `int(x)` semantics. -/
def pyTrunc (q : ℚ) : ℤ :=
  q.num.tdiv q.den

/-- Embedding of `ClusteringService.calculate_dynamic_params`:
`max_depth = max(1, max_depth_base - depth // 2)`;
`min_size = max(1, int(n_samples * self.min_cluster_size_ratio))` then
`min_size = max(min_size, min_size_base)`.  `ratioQ` is the configured
`MIN_CLUSTER_SIZE_RATIO` (0.15 in `config/settings.py`). -/
def calculateDynamicParams (nSamples depth : ℕ) (maxDepthBase minSizeBase : ℤ)
    (ratioQ : ℚ) : ℤ × ℤ :=
  (max 1 (maxDepthBase - ((depth / 2 : ℕ) : ℤ)),
   max (max 1 (pyTrunc ((nSamples : ℚ) * ratioQ))) minSizeBase)

/-- The parameter policy exactly as claim C1 states it: the minimum size is
`max(baseMinSize, ceil(sampleCount * ratio))`. -/
def calculateDynamicParamsClaim (nSamples depth : ℕ) (maxDepthBase minSizeBase : ℤ)
    (ratioQ : ℚ) : ℤ × ℤ :=
  (max 1 (maxDepthBase - ((depth / 2 : ℕ) : ℤ)),
   max minSizeBase ⌈(nSamples : ℚ) * ratioQ⌉)

/-! ## C10 — MindmapNode._sanitize_id (node.py 32-57)

The Python pipeline is: empty check, `id.lower()`,
`re.sub(r'[^\w]+', '_', ...)` (each maximal run of non-word characters
becomes one underscore), `.strip('_')`, `re.sub(r'_+', '_', ...)` (runs of
underscores collapse to one), and a final `or "node"` default.  The regex
class `\w` (letter, digit or underscore) and `str.lower` are modelled on
the ASCII alphabet that node ids are built from (`root`, `root_0`, ...). -/

/-- Regex `\w`: word character (alphanumeric or underscore). -/
def isWordChar (c : Char) : Bool :=
  c.isAlphanum || c = '_'

/-- A word character that is not an underscore (kept unchanged by the
amended run-replacement below). -/
def isPlainWordChar (c : Char) : Bool :=
  c.isAlphanum && c != '_'

/-- Embedding of `re.sub(r'[^\w]+', '_', s)`: every maximal run of non-word
characters is replaced by a single underscore (emitted at the end of the
run). -/
def replaceNonWordRuns : List Char → List Char
  | [] => []
  | c :: cs =>
    if isWordChar c then c :: replaceNonWordRuns cs
    else
      match cs with
      | [] => ['_']
      | d :: _ => if isWordChar d then '_' :: replaceNonWordRuns cs else replaceNonWordRuns cs

/-- Replacement of every maximal run of characters that are non-word
characters or underscores by a single underscore (the amended reading of
the sanitization pipeline). -/
def replaceNonWordUnderscoreRuns : List Char → List Char
  | [] => []
  | c :: cs =>
    if isPlainWordChar c then c :: replaceNonWordUnderscoreRuns cs
    else
      match cs with
      | [] => ['_']
      | d :: _ =>
        if isPlainWordChar d then '_' :: replaceNonWordUnderscoreRuns cs
        else replaceNonWordUnderscoreRuns cs

/-- Embedding of `re.sub(r'_+', '_', s)`: collapse each run of underscores
to a single underscore (keeping the last one of the run). -/
def collapseUnderscores : List Char → List Char
  | [] => []
  | c :: cs =>
    match cs with
    | [] => [c]
    | d :: _ =>
      if c = '_' ∧ d = '_' then collapseUnderscores cs else c :: collapseUnderscores cs

/-- Embedding of `MindmapNode._sanitize_id` (node.py 32-57). -/
def sanitizeId (id : String) : String :=
  if id.isEmpty then "node"
  else
    let cs := id.toList.map Char.toLower
    let cs := replaceNonWordRuns cs
    let cs := cs.dropWhile (fun c => c = '_')
    let cs := dropTrailing (fun c => c = '_') cs
    let cs := collapseUnderscores cs
    if cs.isEmpty then "node" else String.mk cs

/-- The sanitization exactly as claim C10 states it: lowercase, replace each
maximal run of non-word characters by one underscore, strip leading and
trailing underscores, default to "node" — with no collapsing of underscore
runs that were already present in the input. -/
def sanitizeIdClaim (id : String) : String :=
  if id.isEmpty then "node"
  else
    let cs := id.toList.map Char.toLower
    let cs := replaceNonWordRuns cs
    let cs := cs.dropWhile (fun c => c = '_')
    let cs := dropTrailing (fun c => c = '_') cs
    if cs.isEmpty then "node" else String.mk cs

/-- The amended sanitization: lowercase, replace each maximal run of
characters that are non-word characters or underscores by a single
underscore, strip leading and trailing underscores, default to "node". -/
def sanitizeIdAmended (id : String) : String :=
  if id.isEmpty then "node"
  else
    let cs := id.toList.map Char.toLower
    let cs := replaceNonWordUnderscoreRuns cs
    let cs := cs.dropWhile (fun c => c = '_')
    let cs := dropTrailing (fun c => c = '_') cs
    if cs.isEmpty then "node" else String.mk cs


/-! ## C6 — label sanitization and the deterministic fallback
(`MindmapNode._sanitize_label`, node.py 59-82, and
`LabelGenerationService._create_fallback_label`, label_service.py 195-223) -/

/-- The markdown formatting characters removed by
`re.sub(r'[*_`#\\[\\]]+', '', label)` (the backquote written by code). -/
def isMarkdownChar (c : Char) : Bool :=
  c = '*' || c = '_' || c = Char.ofNat 96 || c = '#' || c = '[' || c = ']'

/-- The local variable `cleaned` of `_sanitize_label` after markdown removal
and whitespace normalisation: `' '.join(cleaned.split())`. -/
def labelCleaned (label : String) : List Char :=
  joinSpace (pyWords (label.toList.filter (fun c => ¬ isMarkdownChar c)))

/-- The local variable `cleaned` of `_sanitize_label` after the 10-word
truncation step: `' '.join(words[:10]) + '...'` when there are more than 10
words. -/
def labelTruncated (label : String) : List Char :=
  if 10 < (pyWords (labelCleaned label)).length then
    joinSpace ((pyWords (labelCleaned label)).take 10) ++ ['.', '.', '.']
  else labelCleaned label

/-- Embedding of `MindmapNode._sanitize_label` (node.py 59-82): empty labels
become "Untitled", markdown characters are removed, whitespace is collapsed,
the label is limited to 10 words, and a blank result becomes "Untitled". -/
def sanitizeLabel (label : String) : String :=
  if label.isEmpty then "Untitled"
  else
    if (pyStrip (labelTruncated label)).isEmpty then "Untitled"
    else String.mk (pyStrip (labelTruncated label))

/-- Embedding of `re.sub(r'\s+', ' ', s)`: every maximal whitespace run is
replaced by a single space. -/
def collapseSpaceRuns : List Char → List Char
  | [] => []
  | c :: cs =>
    match cs with
    | [] => if pyIsSpace c then [' '] else [c]
    | d :: _ =>
      if pyIsSpace c ∧ pyIsSpace d then collapseSpaceRuns cs
      else (if pyIsSpace c then ' ' else c) :: collapseSpaceRuns cs

/-- Embedding of `LabelGenerationService._create_fallback_label`
(label_service.py 195-223): the deterministic fallback label derived from the
first member text (the unused `language` argument is omitted). -/
def createFallbackLabel (texts : List String) : String :=
  match texts with
  | [] => "Untitled"
  | t :: _ =>
    let firstText := t.toList.take 50
    let cleaned := pyStrip (collapseSpaceRuns firstText)
    let ws := (pyWords cleaned).take 8
    let fallback := joinSpace ws
    let fallback2 :=
      if fallback.length < cleaned.length then fallback ++ ['.', '.', '.'] else fallback
    if fallback2.isEmpty then "Untitled" else String.mk fallback2


/-! ## C2/C3/C5 — the Recursive Tree Builder
(`MindmapService._recursive_cluster`, mindmap_service.py 134-222, with
`ClusteringService.cluster_embeddings` / `split_by_clusters` /
`should_continue_clustering`, clustering_service.py 100-206)

The builder is modelled over the *member indices* of the segments a node is
built from: the numeric content of the embedding rows is only ever consumed
by the external partitioner (sklearn `AgglomerativeClustering`), which
enters the model as the function parameter `fp` (for `fit_predict`);
`reduce_dimensions` keeps the rows in 1:1 correspondence, so rows are
identified with their segment indices.  A node therefore carries the
`members` it was built from, the claim C2 wording for "the segments it was
built from" (the Python `MindmapNode` holds them implicitly as the
`sentences` argument of the recursive call that created it).  The fuel
argument bounds the recursion; Python needs none because the depth check
stops the recursion at depth `max 1 maxDepthBase` at the latest, and
`max 1 maxDepthBase + 1 - depth` fuel is always enough (hypotheses `h1`,
`h2` of `recursive_cluster_failure_isolated`). -/

/-- A mindmap tree node: id, label, the member indices of the segments the
node was built from, and its children. -/
inductive MNode where
  | mk (id : String) (label : String) (members : List ℕ) (children : List MNode)

/-- Node id. -/
def MNode.id : MNode → String
  | .mk i _ _ _ => i

/-- Node label. -/
def MNode.label : MNode → String
  | .mk _ l _ _ => l

/-- Member indices of the segments the node was built from. -/
def MNode.members : MNode → List ℕ
  | .mk _ _ m _ => m

/-- Child nodes. -/
def MNode.children : MNode → List MNode
  | .mk _ _ _ c => c

/-- All nodes of a tree (the node itself and, recursively, all nodes of its
children). -/
def allNodes : MNode → List MNode
  | .mk i l m cs => .mk i l m cs :: (cs.attach.map (fun c => allNodes c.1)).flatten
decreasing_by
  have := List.sizeOf_lt_of_mem c.2
  simp only [MNode.mk.sizeOf_spec]
  omega

/-- Embedding of `ClusteringService.should_continue_clustering`
(clustering_service.py 178-205). -/
def shouldContinueClustering (nSamples depth : ℕ) (maxDepth minSize : ℤ) : Bool :=
  if (nSamples : ℤ) < minSize then false
  else if maxDepth ≤ (depth : ℤ) then false
  else true

/-- The cluster count of `ClusteringService.cluster_embeddings`:
`n_clusters = min(2 + depth, n_samples)` clamped to
`max(2, min(n_clusters, n_samples))`. -/
def nClustersFor (depth n : ℕ) : ℕ :=
  max 2 (min (2 + depth) n)

/-- Embedding of `ClusteringService.cluster_embeddings`
(clustering_service.py 100-148): the external `AgglomerativeClustering`
`fit_predict` call (parameter `fp`) on the rows, with the dynamic cluster
count; any exception it raises is re-raised as `ValueError` (the `.error`
value). -/
def clusterEmbeddings (fp : ℕ → List ℕ → Except Unit (List ℕ))
    (rows : List ℕ) (depth : ℕ) : Except Unit (List ℕ) :=
  fp (nClustersFor depth rows.length) rows

/-- The members of the cluster with label `lab`, in order: embedding of
`split_by_clusters` / `np.where(labels == cluster_idx)` selection
(clustering_service.py 150-176, mindmap_service.py 199-205). -/
def selectByLabel (segs ls : List ℕ) (lab : ℕ) : List ℕ :=
  ((segs.zip ls).filter (fun p => p.2 == lab)).map Prod.fst

/-- Embedding of `np.unique(labels)`: the distinct labels in ascending
order. -/
def pyUnique (ls : List ℕ) : List ℕ :=
  (List.range (ls.foldr max 0 + 1)).filter (fun x => ls.contains x)

/-- Sequence a list of child results; the first exception propagates
(Python raises out of the `for` loop at the first failing child). -/
def seqExcept : List (Except Unit MNode) → Except Unit (List MNode)
  | [] => .ok []
  | x :: xs =>
    match x with
    | .error e => .error e
    | .ok a =>
      match seqExcept xs with
      | .ok as => .ok (a :: as)
      | .error e => .error e

/-- Embedding of `MindmapService._recursive_cluster`
(mindmap_service.py 134-222).  `fp` is the external partitioner, `lblGen`
the label oracle (`LabelGenerationService.generate_topic_label`, a total
function because it catches every exception and falls back), and the node
label always passes through the `MindmapNode` constructor's
`_sanitize_label`.  A stop condition or a partitioning failure produces a
leaf; a length mismatch between data and labels would raise `ValueError`
out of `split_by_clusters` (the `.error ()` case, impossible for a
partitioner that returns one label per row). -/
def recursiveCluster (fp : ℕ → List ℕ → Except Unit (List ℕ))
    (lblGen : List ℕ → String) (mdb msb : ℤ) (ratioQ : ℚ) :
    ℕ → List ℕ → ℕ → String → Except Unit MNode
  | 0, _, _, _ => .error ()
  | fuel + 1, segs, depth, cid =>
    if shouldContinueClustering segs.length depth
        (calculateDynamicParams segs.length depth mdb msb ratioQ).1
        (calculateDynamicParams segs.length depth mdb msb ratioQ).2 = false then
      .ok (.mk cid (sanitizeLabel (lblGen segs)) segs [])
    else
      match clusterEmbeddings fp segs depth with
      | .error _ => .ok (.mk cid (sanitizeLabel (lblGen segs)) segs [])
      | .ok ls =>
        if ls.length = segs.length then
          match seqExcept ((pyUnique ls).map (fun lab =>
            recursiveCluster fp lblGen mdb msb ratioQ fuel (selectByLabel segs ls lab)
              (depth + 1) (cid ++ "_" ++ toString lab))) with
          | .ok cs => .ok (.mk cid (sanitizeLabel (lblGen segs)) segs cs)
          | .error e => .error e
        else .error ()


/-- A concrete partitioner with sklearn `AgglomerativeClustering` behaviour
for witnesses and counterexamples: it raises (like sklearn, which cannot
extract more clusters than samples) whenever `n_clusters` exceeds the row
count, and otherwise assigns row `i` to cluster `i % k`. -/
def fpModel (k : ℕ) (rows : List ℕ) : Except Unit (List ℕ) :=
  if rows.length < k then .error ()
  else .ok ((List.range rows.length).map (fun i => i % k))


/-- The concrete tree that `recursiveCluster` builds from segments
`[0, 1, 2]` with the `fpModel` partitioner, `baseMaxDepth = 3`,
`baseMinSize = 2`, ratio 0 (used by witnesses). -/
def rcwTree : MNode :=
  .mk "root" (sanitizeLabel "Topic") [0, 1, 2]
    [.mk ("root" ++ "_" ++ toString 0) (sanitizeLabel "Topic") [0, 2]
      [.mk ("root" ++ "_" ++ toString 0 ++ "_" ++ toString 0) (sanitizeLabel "Topic") [0] [],
       .mk ("root" ++ "_" ++ toString 0 ++ "_" ++ toString 1) (sanitizeLabel "Topic") [2] []],
     .mk ("root" ++ "_" ++ toString 1) (sanitizeLabel "Topic") [1] []]


/-! ## C8/C4 — response validation, cleaning and the retrier
(`GroqClient.validate_response` / `_clean_response` / `generate` /
`generate_with_retry`, groq_client.py 46-243) -/

/-- Substring test: does `pat` occur in the list (Python `pat in s`)? -/
def containsSub (pat : List Char) : List Char → Bool
  | [] => pat.isEmpty
  | c :: cs => pat.isPrefixOf (c :: cs) || containsSub pat cs

/-- Python `str.lower()` on a character list (ASCII model). -/
def lowerList (cs : List Char) : List Char :=
  cs.map Char.toLower

/-- Embedding of `re.search(r'<[^>]+>', s)` as a Boolean: somewhere a `<` is
followed by at least one non-`>` character and then a `>`. -/
def hasTag : List Char → Bool
  | [] => false
  | c :: cs =>
    (c = '<' && !(cs.takeWhile (fun d => d ≠ '>')).isEmpty &&
      decide ((cs.takeWhile (fun d => d ≠ '>')).length < cs.length)) || hasTag cs

/-- Case-insensitive prefix test against a lowercase pattern
(`re.match(pat, s, re.IGNORECASE)` for a literal pattern). -/
def ciStartsWith (pat : String) (cs : List Char) : Bool :=
  pat.toList.isPrefixOf (lowerList cs)

/-- The explanatory-preamble patterns of `validate_response`
(groq_client.py 176-184): `^(This section|This interactive|This|The
section)`, `^Descriptive Caption:`, `^Description:`, case-insensitive. -/
def startsWithExplanatory (cs : List Char) : Bool :=
  ciStartsWith "this section" cs || ciStartsWith "this interactive" cs ||
  ciStartsWith "this" cs || ciStartsWith "the section" cs ||
  ciStartsWith "descriptive caption:" cs || ciStartsWith "description:" cs

/-- A character of the Arabic Unicode block `U+0600 .. U+06FF`
(groq_client.py 188). -/
def isArabicChar (c : Char) : Bool :=
  0x600 ≤ c.toNat && c.toNat ≤ 0x6FF

/-- `expected_language.lower() in ["arabic", "ar"]`: the script-distinguishable
(non-Latin-script) case among the languages the code supports. -/
def isArabicLang (lang : String) : Bool :=
  lowerList lang.toList = "arabic".toList || lowerList lang.toList = "ar".toList

/-- `response.count('*') + response.count('_') + response.count('#')`. -/
def mdCharCount (cs : List Char) : ℕ :=
  cs.countP (fun c => c = '*') + cs.countP (fun c => c = '_') +
    cs.countP (fun c => c = '#')

/-- Embedding of `GroqClient.validate_response` (groq_client.py 150-205).
The markdown-excess check `markdown_chars > len(response) * 0.1` is modelled
as the exact integer comparison `len(response) < 10 * markdown_chars`, which
agrees with the double-precision comparison for every realistic length (the
float product `len * 0.1` rounds to `len / 10` exactly whenever that is an
integer, and otherwise no integer lies between the two). -/
def validateResponse (response expectedLanguage : String) : Bool :=
  if response.isEmpty || (pyStrip response.toList).isEmpty then false
  else if containsSub "<think>".toList (lowerList response.toList) ||
      containsSub "</think>".toList (lowerList response.toList) then false
  else if hasTag response.toList then false
  else if startsWithExplanatory response.toList then false
  else if isArabicLang expectedLanguage && !(response.toList.any isArabicChar) then false
  else if response.toList.length < 10 * mdCharCount response.toList then false
  else if 50 < (pyWords response.toList).length then false
  else true

/-- Scan for the closing `</think>` (case-insensitive); returns the
remainder after it if present. -/
def afterThinkClose : List Char → Option (List Char)
  | [] => none
  | c :: cs =>
    if "</think>".toList.isPrefixOf (lowerList (c :: cs)) then some ((c :: cs).drop 8)
    else afterThinkClose cs

/-- Embedding of `re.sub(r'<think>.*?</think>', '', s, DOTALL | IGNORECASE)`:
non-greedy removal of think blocks; an unclosed `<think>` is kept (the regex
needs both delimiters).  Fuel-driven scan; `cs.length` fuel is enough. -/
def removeThinkF : ℕ → List Char → List Char
  | 0, cs => cs
  | _, [] => []
  | n + 1, c :: cs =>
    if "<think>".toList.isPrefixOf (lowerList (c :: cs)) then
      match afterThinkClose ((c :: cs).drop 7) with
      | some rem => removeThinkF n rem
      | none => c :: cs
    else c :: removeThinkF n cs

/-- Embedding of `re.sub(r'<[^>]+>', '', s)`: remove each tag (a `<`, one or
more non-`>` characters, then `>`); scanning continues after a removed tag.
Fuel-driven; `cs.length` fuel is enough. -/
def removeTagsF : ℕ → List Char → List Char
  | 0, cs => cs
  | _, [] => []
  | n + 1, c :: cs =>
    if c = '<' then
      if (cs.takeWhile (fun d => d ≠ '>')).isEmpty then c :: removeTagsF n cs
      else if (cs.takeWhile (fun d => d ≠ '>')).length < cs.length then
        removeTagsF n (cs.drop ((cs.takeWhile (fun d => d ≠ '>')).length + 1))
      else c :: removeTagsF n cs
    else c :: removeTagsF n cs

/-- The subject alternatives of the first preamble pattern of
`_clean_response` (groq_client.py 126), in the regex's order. -/
def preambleSubjects : List String :=
  ["this section", "this interactive", "this", "the", "a", "an"]

/-- The verb alternatives of the first preamble pattern of
`_clean_response` (groq_client.py 126), in the regex's order. -/
def preambleVerbs : List String :=
  ["explores", "describes", "is about", "discusses", "covers", "showcases",
   "illustrates", "provides", "offers", "highlights"]

/-- Try the verb alternatives at the given position: a verb must match
case-insensitively and be followed by at least one whitespace character
(the trailing greedy whitespace run is consumed). -/
def tryVerbs : List String → List Char → Option (List Char)
  | [], _ => none
  | v :: vs, r2 =>
    if v.toList.isPrefixOf (lowerList r2) then
      let r3 := r2.drop v.length
      let ws2 := r3.takeWhile pyIsSpace
      if ws2.isEmpty then tryVerbs vs r2 else some (r3.drop ws2.length)
    else tryVerbs vs r2

/-- Try the subject alternatives, in order, with regex backtracking: subject
(case-insensitive), one or more whitespace characters, then a verb via
`tryVerbs`. -/
def tryAlts : List String → List Char → Option (List Char)
  | [], _ => none
  | a :: as, cs =>
    if a.toList.isPrefixOf (lowerList cs) then
      let r1 := cs.drop a.length
      let ws1 := r1.takeWhile pyIsSpace
      if ws1.isEmpty then tryAlts as cs
      else
        match tryVerbs preambleVerbs (r1.drop ws1.length) with
        | some r => some r
        | none => tryAlts as cs
    else tryAlts as cs

/-- The first prefix removal of `_clean_response`: strip an explanatory
subject-verb preamble when present. -/
def stripVerbPreamble (cs : List Char) : List Char :=
  match tryAlts preambleSubjects cs with
  | some r => r
  | none => cs

/-- `re.sub('^' + pat + r'\s*', '', s, IGNORECASE)` for a literal pattern
`pat` (given lowercase): strip the prefix and any following whitespace. -/
def stripOnePrefixCI (pat : String) (cs : List Char) : List Char :=
  if pat.toList.isPrefixOf (lowerList cs) then
    let r := cs.drop pat.length
    r.drop (r.takeWhile pyIsSpace).length
  else cs

/-- Embedding of `GroqClient._clean_response` (groq_client.py 103-148):
strip, remove think blocks, remove remaining tags, strip the known
preamble prefixes, remove markdown characters, collapse whitespace runs
(`\n+` then `\s+`, jointly: every whitespace run becomes one space), and a
final strip. -/
def cleanResponse (response : String) : String :=
  if response.isEmpty then ""
  else
    let cs0 := pyStrip response.toList
    let cs1 := removeThinkF cs0.length cs0
    let cs2 := removeTagsF cs1.length cs1
    let cs3 := stripVerbPreamble cs2
    let cs4 := stripOnePrefixCI "descriptive caption:" cs3
    let cs5 := stripOnePrefixCI "description:" cs4
    let cs6 := stripOnePrefixCI "label:" cs5
    let cs7 := stripOnePrefixCI "output:" cs6
    let cs8 := cs7.filter (fun c => ¬ isMarkdownChar c)
    let cs9 := collapseSpaceRuns cs8
    String.mk (pyStrip cs9)

/-- The Python exception kinds that can cross the `generate_with_retry`
boundary: a raw exception of the provider SDK, or the repository's own
`LLMError` (src/infrastructure/llm/base.py 54-56). -/
inductive PyExc where
  | providerExc (msg : String)
  | llmError (msg : String)
deriving DecidableEq

/-- Is the exception the repository's `LLMError` kind? -/
def PyExc.isLLMError : PyExc → Bool
  | .llmError _ => true
  | .providerExc _ => false

/-- Embedding of `GroqClient.generate` (groq_client.py 46-101): the provider
call either returns raw text (cleaned before returning) or raises; the
`except` clause catches any provider exception and re-raises
`LLMError("Failed to generate completion: ...")`, so a raw provider
exception never escapes `generate`. -/
def groqGenerate (providerResult : Except String String) : Except PyExc String :=
  match providerResult with
  | .ok raw => .ok (cleanResponse raw)
  | .error m => .error (.llmError ("Failed to generate completion: " ++ m))

/-- The message of the exhausted-retries `LLMError`
(groq_client.py 240-243). -/
def exhaustedMsg (maxRetries : ℕ) (lang : String) : String :=
  "Failed to generate valid response after " ++ toString (maxRetries + 1) ++
    " attempts. Expected language: " ++ lang

/-- The retry loop of `generate_with_retry` (groq_client.py 229-243):
`r` attempts remain, `i` is the current attempt index; every attempt issues
the identical `prompt`.  A `generate` exception propagates immediately;
a validated response returns; exhaustion raises the distinct `LLMError`. -/
def generateWithRetryGo (provider : String → ℕ → Except String String)
    (prompt lang : String) (maxRetries : ℕ) : ℕ → ℕ → Except PyExc String
  | 0, _ => .error (.llmError (exhaustedMsg maxRetries lang))
  | r + 1, i =>
    match groqGenerate (provider prompt i) with
    | .error e => .error e
    | .ok s =>
      if validateResponse s lang then .ok s
      else generateWithRetryGo provider prompt lang maxRetries r (i + 1)

/-- Embedding of `GroqClient.generate_with_retry` (groq_client.py 207-243):
at most `max_retries + 1` attempts with the identical prompt.  The provider
is modelled as a function of the prompt and the attempt index (sampling
variance). -/
def generateWithRetry (provider : String → ℕ → Except String String)
    (prompt lang : String) (maxRetries : ℕ) : Except PyExc String :=
  generateWithRetryGo provider prompt lang maxRetries (maxRetries + 1) 0

/-- How many `generate` calls the retry loop makes before returning or
raising (same recursion as `generateWithRetryGo`). -/
def attemptsUsedGo (provider : String → ℕ → Except String String)
    (prompt lang : String) : ℕ → ℕ → ℕ
  | 0, _ => 0
  | r + 1, i =>
    match groqGenerate (provider prompt i) with
    | .error _ => 1
    | .ok s =>
      if validateResponse s lang then 1
      else 1 + attemptsUsedGo provider prompt lang r (i + 1)

/-- The number of attempts `generate_with_retry` makes. -/
def attemptsUsed (provider : String → ℕ → Except String String)
    (prompt lang : String) (maxRetries : ℕ) : ℕ :=
  attemptsUsedGo provider prompt lang (maxRetries + 1) 0

/-- An attempt outcome that returned text failing validation (the retried
case of the loop). -/
def okButInvalid (r : Except PyExc String) (lang : String) : Bool :=
  match r with
  | .ok s => ! validateResponse s lang
  | .error _ => false


/-! ## C7 — the Relationship Extractor
(`RelationshipExtractor.extract_relationships` /
`_extract_cluster_relationships`, relationship_extractor.py 19-130)

The pairwise cosine-similarity matrix comes from sklearn
(`cosine_similarity`), an external library; it enters the model as the
function `gsim` on global concept indices, with the mathematical bound
`gsim i j ≤ 1` (Cauchy-Schwarz) as a hypothesis where needed. -/

/-- A concept entry of a cluster: its global index (`enumerate` position)
and its text (relationship_extractor.py 38-45). -/
structure ConceptEntry where
  index : ℕ
  text : String

/-- Python `s[:100] + "..." if len(s) > 100 else s`
(relationship_extractor.py 125-126). -/
def pyTruncText (s : String) : String :=
  if 100 < s.toList.length then String.mk (s.toList.take 100) ++ "..." else s

/-- A directed relationship record as emitted by
`_extract_cluster_relationships` (relationship_extractor.py 117-127). -/
structure Relationship where
  sourceConceptIndex : ℕ
  targetConceptIndex : ℕ
  sourceLocalIndex : ℕ
  targetLocalIndex : ℕ
  confidenceScore : ℚ
  relationshipType : String
  clusterId : ℕ
  sourceText : String
  targetText : String

/-- The candidate targets of source `i`: every other local index `j` with
similarity at least the threshold, in ascending `j` order
(relationship_extractor.py 101-109). -/
def potentialTargets (sim : ℕ → ℕ → ℚ) (th : ℚ) (n i : ℕ) : List (ℕ × ℚ) :=
  (List.range n).filterMap (fun j =>
    if i ≠ j ∧ th ≤ sim i j then some (j, sim i j) else none)

/-- Embedding of `RelationshipExtractor._extract_cluster_relationships`
(relationship_extractor.py 75-130): fewer than 2 concepts emit nothing;
otherwise, per source `i`, the candidates are sorted by similarity
descending (Python's stable `sort(..., reverse=True)`, modelled by the
stable `mergeSort`), the first `maxRel` are kept and one directed
relationship is emitted per selection. -/
def extractClusterRelationships (sim : ℕ → ℕ → ℚ) (th : ℚ) (maxRel : ℕ)
    (concepts : List ConceptEntry) (cid : ℕ) : List Relationship :=
  if concepts.length < 2 then []
  else
    (List.range concepts.length).flatMap (fun i =>
      ((potentialTargets sim th concepts.length i).mergeSort
          (fun x y => decide (y.2 ≤ x.2))).take maxRel |>.map (fun tj =>
        { sourceConceptIndex := (concepts.getD i ⟨0, ""⟩).index
          targetConceptIndex := (concepts.getD tj.1 ⟨0, ""⟩).index
          sourceLocalIndex := i
          targetLocalIndex := tj.1
          confidenceScore := tj.2
          relationshipType := "semantic_similarity"
          clusterId := cid
          sourceText := pyTruncText (concepts.getD i ⟨0, ""⟩).text
          targetText := pyTruncText (concepts.getD tj.1 ⟨0, ""⟩).text }))

/-- The concepts grouped into the cluster with label `lab`:
`for i, label in enumerate(labels): clusters[label].append({'index': i,
'text': texts[i], ...})` (relationship_extractor.py 36-45). -/
def clusterConceptsFor (labels : List ℕ) (texts : List String) (lab : ℕ) : List ConceptEntry :=
  (List.range labels.length).filterMap (fun i =>
    if labels.getD i 0 = lab then some ⟨i, texts.getD i ""⟩ else none)

/-- The distinct labels in first-occurrence order (Python dict insertion
order over `clusters`). -/
def firstOccurrences (labels : List ℕ) : List ℕ :=
  labels.foldl (fun acc l => if l ∈ acc then acc else acc ++ [l]) []

/-- Embedding of `RelationshipExtractor.extract_relationships`
(relationship_extractor.py 19-73): group concepts by primary label, skip
clusters with fewer than 2 members, and extract each cluster's directed
relationships from the cosine similarities of its member embeddings
(`gsim` on the members' global indices). -/
def extractRelationships (gsim : ℕ → ℕ → ℚ) (th : ℚ) (maxRel : ℕ)
    (labels : List ℕ) (texts : List String) : List (ℕ × List Relationship) :=
  (firstOccurrences labels).map (fun lab =>
    let cps := clusterConceptsFor labels texts lab
    if cps.length < 2 then (lab, [])
    else (lab, extractClusterRelationships
      (fun i j => gsim ((cps.getD i ⟨0, ""⟩).index) ((cps.getD j ⟨0, ""⟩).index))
      th maxRel cps lab))

/-! ## C9 — the Root Namer (`TreeNamerService.generate_tree_name`,
backend/src/core/tree_namer.py 12-71)

The provider is `GroqClient.generate` of backend/infrastructure/llm.py,
which catches every exception of the underlying SDK call and then falls
off the end, implicitly returning `None`; it enters the model as the
function parameter `provider : String → Option String`. `json.loads`
enters as the parameter `loads : String → Option PyVal`, `none` meaning
`json.JSONDecodeError`. -/

/-- An enriched-tree node as consumed by `TreeNamerService.summarize_tree`
(tree_namer.py 12-22): a dict with optional "label" and "description"
string entries and a "clusters" dict of named children (an absent
"clusters" key and an empty dict produce the same summary, so both are
the empty list). -/
inductive TNode where
  | mk (label : Option String) (description : Option String)
      (clusters : List (String × TNode)) : TNode

/-- Python `"\n".join`. -/
def joinNL : List String → String
  | [] => ""
  | [s] => s
  | s :: ss => s ++ "\n" ++ joinNL ss

/-- Python `'  ' * depth`. -/
def indentPad (depth : ℕ) : String :=
  String.mk (List.replicate (2 * depth) ' ')

/-- Embedding of `TreeNamerService.summarize_tree` (tree_namer.py 12-22):
one line per labelled node (with `node.get('description', '')`), children
recursively at depth + 1, empty entries dropped before joining. -/
def summarizeTree (node : TNode) (depth : ℕ) : String :=
  match node with
  | .mk lbl desc cls =>
    joinNL (((match lbl with
      | some l => [indentPad depth ++ "- " ++ l ++ ": " ++ desc.getD ""]
      | none => []) ++
      cls.attach.map (fun c => summarizeTree c.1.2 (depth + 1))).filter
      (fun t => ¬ t.isEmpty))
decreasing_by
  simp_wf
  have h1 := List.sizeOf_lt_of_mem c.2
  cases hc : c.1 with
  | mk s t => rw [hc] at h1; simp at h1 ⊢; omega

/-- A parsed JSON value as far as `generate_tree_name` inspects it:
a dict (on which `.get` succeeds), or any other value (a string, list,
number... on which `.get` raises `AttributeError`). -/
inductive PyVal where
  | str : String → PyVal
  | dict : List (String × PyVal) → PyVal
  | other : PyVal

/-- Python `dict.get(k, dflt)`. -/
def pyDictGet (kvs : List (String × PyVal)) (k : String) (dflt : PyVal) : PyVal :=
  match kvs.lookup k with
  | some v => v
  | none => dflt

/-- The greedy DOTALL regex `r"\x7b.*\x7d"` of tree_namer.py 58: the
substring from the first `\x7b` through the last `\x7d` after it, if
any. -/
def extractBraces (cs : List Char) : Option (List Char) :=
  let t := dropTrailing (fun c => c != Char.ofNat 125)
    (cs.dropWhile (fun c => c != Char.ofNat 123))
  if t.isEmpty then none else some t

/-- The naming prompt of tree_namer.py 31-47 (an f-string over the
hierarchy summary and the target language). -/
def treeNamerPrompt (tree : TNode) (lang : String) : String :=
  "\n        You are naming a hierarchical mindmap based on the following summary\n        of all nodes and their descriptions:\n\n        " ++
  summarizeTree tree 0 ++
  "\n\n        Your task:\n        1. Generate a concise title (maximum 6 words) that represents the overall topic.\n        2. Write a 1–2 sentence summary describing the mindmap’s main theme.\n        3. Both the title and summary must be written in **" ++
  lang ++
  "**.\n\n        Respond strictly in JSON format with the following keys:\n        \x7b\n            \"title\": \"<short title in " ++
  lang ++
  ">\",\n            \"summary\": \"<summary in " ++
  lang ++
  ">\"\n        \x7d\n        "

/-- Lines 53-62 of tree_namer.py: `json.loads(response)`, and on
`JSONDecodeError` a second `json.loads` on the brace-extracted substring;
`none` covers every raising path (the `ValueError` when no braces match,
and the uncaught `JSONDecodeError` of the second `loads`). -/
def locateStructured (loads : String → Option PyVal) (response : String) :
    Option PyVal :=
  match loads response with
  | some d => some d
  | none =>
    match extractBraces response.toList with
    | some sub => loads (String.mk sub)
    | none => none

/-- The fallback pair of tree_namer.py 71:
`(f"Untitled Mindmap (\x7blang\x7d)", f"No overview available in \x7blang\x7d.")`. -/
def fallbackPair (lang : String) : PyVal × PyVal :=
  (PyVal.str ("Untitled Mindmap (" ++ lang ++ ")"),
   PyVal.str ("No overview available in " ++ lang ++ "."))

/-- Embedding of `TreeNamerService.generate_tree_name` (tree_namer.py
24-71). A `none` provider result makes `.strip()` raise
`AttributeError`, a non-dict parse makes `.get` raise `AttributeError`,
and an unlocatable structured result raises `ValueError` or
`JSONDecodeError`; the catch-all `except Exception` of lines 69-71 turns
each of these into the fixed fallback pair. -/
def generateTreeName (provider : String → Option String)
    (loads : String → Option PyVal) (tree : TNode) (lang : String) :
    PyVal × PyVal :=
  match provider (treeNamerPrompt tree lang) with
  | none => fallbackPair lang
  | some raw =>
    match locateStructured loads (String.mk (pyStrip raw.toList)) with
    | some (PyVal.dict kvs) =>
      (pyDictGet kvs "title" (PyVal.str "Untitled Mindmap"),
       pyDictGet kvs "summary" (PyVal.str "No overview available."))
    | some _ => fallbackPair lang
    | none => fallbackPair lang

/-! ## Theorems -/

/-- Truncation toward zero agrees with the floor on non-negative rationals. -/
theorem pyTrunc_eq_floor_of_nonneg (q : ℚ) (h : 0 ≤ q) : pyTrunc q = ⌊q⌋ := by
  unfold pyTrunc
  rw [Rat.floor_def]
  exact Int.tdiv_eq_ediv (Rat.num_nonneg.mpr h) (by exact_mod_cast Nat.zero_le q.den)

/-- C1, counterexample: with 7 samples, ratio 0.15 and `baseMinSize = 1`
(`currentDepth = 0`, `baseMaxDepth = 3`), the code computes
`effectiveMinSize = max(1, int(7 * 0.15)) = max(1, 1) = 1`, while the claimed
formula `max(baseMinSize, ceil(7 * 0.15)) = max(1, 2) = 2`; so
`calculate_dynamic_params` does not satisfy the claimed equations. -/
theorem calculate_dynamic_params_claim_counterexample :
    calculateDynamicParams 7 0 3 1 (3 / 20) = (3, 1) ∧
    calculateDynamicParamsClaim 7 0 3 1 (3 / 20) = (3, 2) ∧
    calculateDynamicParams 7 0 3 1 (3 / 20) ≠ calculateDynamicParamsClaim 7 0 3 1 (3 / 20) := by
  have ht : pyTrunc (((7 : ℕ) : ℚ) * (3 / 20)) = 1 := by
    norm_num [pyTrunc]
    decide
  have hc : ⌈((7 : ℕ) : ℚ) * (3 / 20)⌉ = 2 := by
    rw [show ((7 : ℕ) : ℚ) * (3 / 20) = 21 / 20 by norm_num, Int.ceil_eq_iff]
    norm_num
  have h1 : calculateDynamicParams 7 0 3 1 (3 / 20) = (3, 1) := by
    unfold calculateDynamicParams
    rw [ht]
    norm_num
  have h2 : calculateDynamicParamsClaim 7 0 3 1 (3 / 20) = (3, 2) := by
    unfold calculateDynamicParamsClaim
    rw [hc]
    norm_num
  refine ⟨h1, h2, ?_⟩
  rw [h1, h2]
  intro h
  exact absurd (congrArg Prod.snd h) (by norm_num)

/-- C1, amended: for every `sampleCount`, `currentDepth`, `baseMaxDepth`,
`baseMinSize` and every non-negative configured ratio,
`calculate_dynamic_params` returns
`effectiveMaxDepth = max(1, baseMaxDepth - floor(currentDepth / 2))` and
`effectiveMinSize = max(baseMinSize, max(1, floor(sampleCount * ratio)))` —
the floor (Python `int` truncation of a non-negative product), not the
ceiling, of `sampleCount * ratio`. -/
theorem calculate_dynamic_params_amended (nSamples depth : ℕ)
    (maxDepthBase minSizeBase : ℤ) (ratioQ : ℚ) (hr : 0 ≤ ratioQ) :
    calculateDynamicParams nSamples depth maxDepthBase minSizeBase ratioQ =
      (max 1 (maxDepthBase - ((depth / 2 : ℕ) : ℤ)),
       max minSizeBase (max 1 ⌊(nSamples : ℚ) * ratioQ⌋)) := by
  unfold calculateDynamicParams
  rw [pyTrunc_eq_floor_of_nonneg _ (mul_nonneg (by positivity) hr),
    max_comm (max 1 _) minSizeBase]

/-- Witness for `calculate_dynamic_params_amended` at `n = 7`, `depth = 0`,
`baseMaxDepth = 3`, `baseMinSize = 1`, ratio `3/20`. -/
theorem calculate_dynamic_params_amended_witness :
    calculateDynamicParams 7 0 3 1 (3 / 20) =
      (max 1 (3 - ((0 / 2 : ℕ) : ℤ)), max 1 (max 1 ⌊(7 : ℚ) * (3 / 20)⌋)) :=
  calculate_dynamic_params_amended 7 0 3 1 (3 / 20) (by norm_num)

/-! ### C10 lemmas and theorems -/

theorem collapse_cons_of_ne (c : Char) (y : List Char) (h : c ≠ '_') :
    collapseUnderscores (c :: y) = c :: collapseUnderscores y := by
  cases y with
  | nil => rfl
  | cons d ys => simp [collapseUnderscores, h]

theorem collapse_cons_head_ne (y : List Char) (d : Char) (ys : List Char)
    (hy : y = d :: ys) (hd : d ≠ '_') :
    collapseUnderscores ('_' :: y) = '_' :: collapseUnderscores y := by
  subst hy; simp [collapseUnderscores, hd]

theorem collapse_us_us (y : List Char) :
    collapseUnderscores ('_' :: '_' :: y) = collapseUnderscores ('_' :: y) := by
  simp [collapseUnderscores]

theorem collapse_sublist (x : List Char) : (collapseUnderscores x).Sublist x := by
  induction x with
  | nil => simp [collapseUnderscores]
  | cons c cs ih =>
    cases cs with
    | nil => simp [collapseUnderscores]
    | cons d ys =>
      by_cases h : c = '_' ∧ d = '_'
      · rw [show collapseUnderscores (c :: d :: ys) = collapseUnderscores (d :: ys) by
          simp [collapseUnderscores, h]]
        exact ih.cons c
      · rw [show collapseUnderscores (c :: d :: ys) = c :: collapseUnderscores (d :: ys) by
          simp [collapseUnderscores, h]]
        exact ih.cons₂ c

theorem collapse_ne_nil (x : List Char) (h : x ≠ []) : collapseUnderscores x ≠ [] := by
  induction x with
  | nil => simp at h
  | cons c cs ih =>
    cases cs with
    | nil => simp [collapseUnderscores]
    | cons d ys =>
      by_cases hc : c = '_' ∧ d = '_'
      · rw [show collapseUnderscores (c :: d :: ys) = collapseUnderscores (d :: ys) by
          simp [collapseUnderscores, hc]]
        exact ih (by simp)
      · rw [show collapseUnderscores (c :: d :: ys) = c :: collapseUnderscores (d :: ys) by
          simp [collapseUnderscores, hc]]
        simp

theorem dropTrailing_eq_nil_iff (p : Char → Bool) (x : List Char) :
    dropTrailing p x = [] ↔ ∀ a ∈ x, p a = true := by
  induction x with
  | nil => simp [dropTrailing]
  | cons c cs ih =>
    simp only [dropTrailing]
    by_cases h : p c ∧ dropTrailing p cs = []
    · simp only [if_pos h]
      constructor
      · intro _
        intro a ha
        rcases List.mem_cons.mp ha with rfl | ha
        · exact h.1
        · exact (ih.mp h.2) a ha
      · intro _; trivial
    · simp only [if_neg h]
      constructor
      · intro hcon; exact absurd hcon (by simp)
      · intro hall
        exfalso
        exact h ⟨hall c (by simp), ih.mpr (fun a ha => hall a (by simp [ha]))⟩

theorem bool_eq_false {b : Bool} (h : ¬ b = true) : b = false := by
  simpa using h

theorem wordChar_underscore : isWordChar '_' = true := by decide

theorem plainWordChar_underscore : isPlainWordChar '_' = false := by decide

theorem plainWordChar_eq_wordChar (c : Char) (h : c ≠ '_') :
    isPlainWordChar c = isWordChar c := by
  simp [isPlainWordChar, isWordChar, h]

theorem ne_underscore_of_not_wordChar (c : Char) (h : isWordChar c = false) : c ≠ '_' := by
  intro hc; subst hc; exact absurd wordChar_underscore (by simp [h])

theorem ne_underscore_of_plainWordChar (c : Char) (h : isPlainWordChar c = true) : c ≠ '_' := by
  intro hc; subst hc; simp [plainWordChar_underscore] at h

theorem rnw_head_underscore (d : Char) (cs : List Char) (h : isWordChar d = false) :
    ∃ y, replaceNonWordRuns (d :: cs) = '_' :: y := by
  induction cs generalizing d with
  | nil => exact ⟨[], by simp [replaceNonWordRuns, h]⟩
  | cons e cs' ih =>
    by_cases he : isWordChar e = true
    · exact ⟨replaceNonWordRuns (e :: cs'), by simp [replaceNonWordRuns, h, he]⟩
    · obtain ⟨y, hy⟩ := ih e (bool_eq_false he)
      refine ⟨y, ?_⟩
      rw [show replaceNonWordRuns (d :: e :: cs') = replaceNonWordRuns (e :: cs') by
        simp [replaceNonWordRuns, h, bool_eq_false he]]
      exact hy

theorem collapse_rnw (cs : List Char) :
    collapseUnderscores (replaceNonWordRuns cs) = replaceNonWordUnderscoreRuns cs := by
  induction cs with
  | nil => rfl
  | cons c cs' ih =>
    by_cases hc : isWordChar c = true
    · -- word character: copied by rNW
      rw [show replaceNonWordRuns (c :: cs') = c :: replaceNonWordRuns cs' by
        simp [replaceNonWordRuns, hc]]
      by_cases hcu : c = '_'
      · -- underscore
        subst hcu
        cases cs' with
        | nil =>
          simp [replaceNonWordRuns, collapseUnderscores, replaceNonWordUnderscoreRuns,
            plainWordChar_underscore]
        | cons d cs'' =>
          by_cases hd : isPlainWordChar d = true
          · -- next char plain: rNW cs' starts with d ≠ '_'
            have hdw : isWordChar d = true := by
              rw [← plainWordChar_eq_wordChar d (ne_underscore_of_plainWordChar d hd)]
              exact hd
            have hdu : d ≠ '_' := ne_underscore_of_plainWordChar d hd
            rw [show replaceNonWordRuns (d :: cs'') = d :: replaceNonWordRuns cs'' by
              simp [replaceNonWordRuns, hdw]]
            rw [collapse_cons_head_ne _ d _ rfl hdu]
            rw [show (d :: replaceNonWordRuns cs'') = replaceNonWordRuns (d :: cs'') by
              simp [replaceNonWordRuns, hdw]]
            rw [ih]
            simp [replaceNonWordUnderscoreRuns, plainWordChar_underscore, hd]
          · -- next char is underscore or non-word: the runs merge
            have goalRhs : replaceNonWordUnderscoreRuns ('_' :: d :: cs'') =
                replaceNonWordUnderscoreRuns (d :: cs'') := by
              simp [replaceNonWordUnderscoreRuns, plainWordChar_underscore,
                bool_eq_false hd]
            rw [goalRhs, ← ih]
            by_cases hdu : d = '_'
            · subst hdu
              rw [show replaceNonWordRuns ('_' :: cs'') = '_' :: replaceNonWordRuns cs'' by
                simp [replaceNonWordRuns, wordChar_underscore]]
              exact collapse_us_us _
            · have hdw : isWordChar d = false := by
                rw [← plainWordChar_eq_wordChar d hdu]
                exact bool_eq_false hd
              obtain ⟨y, hy⟩ := rnw_head_underscore d cs'' hdw
              rw [hy]
              exact collapse_us_us _
      · -- plain word character
        rw [collapse_cons_of_ne c _ hcu, ih]
        have hp : isPlainWordChar c = true := by
          rw [plainWordChar_eq_wordChar c hcu]; exact hc
        simp [replaceNonWordUnderscoreRuns, hp]
    · -- non-word character
      have hcb : isWordChar c = false := bool_eq_false hc
      have hcu : c ≠ '_' := ne_underscore_of_not_wordChar c hcb
      have hcp : isPlainWordChar c = false := by
        rw [plainWordChar_eq_wordChar c hcu]; exact hcb
      cases cs' with
      | nil => simp [replaceNonWordRuns, replaceNonWordUnderscoreRuns, hcb, hcp,
          collapseUnderscores]
      | cons d cs'' =>
        by_cases hd : isWordChar d = true
        · rw [show replaceNonWordRuns (c :: d :: cs'') = '_' :: replaceNonWordRuns (d :: cs'') by
            simp [replaceNonWordRuns, hcb, hd]]
          by_cases hdu : d = '_'
          · subst hdu
            rw [show replaceNonWordRuns ('_' :: cs'') = '_' :: replaceNonWordRuns cs'' by
              simp [replaceNonWordRuns, wordChar_underscore]]
            rw [collapse_us_us _]
            rw [show ('_' :: replaceNonWordRuns cs'') = replaceNonWordRuns ('_' :: cs'') by
              simp [replaceNonWordRuns, wordChar_underscore]]
            rw [ih]
            simp [replaceNonWordUnderscoreRuns, hcp, plainWordChar_underscore]
          · have hdp : isPlainWordChar d = true := by
              rw [plainWordChar_eq_wordChar d hdu]; exact hd
            rw [show replaceNonWordRuns (d :: cs'') = d :: replaceNonWordRuns cs'' by
              simp [replaceNonWordRuns, hd]]
            rw [collapse_cons_head_ne _ d _ rfl hdu]
            rw [show (d :: replaceNonWordRuns cs'') = replaceNonWordRuns (d :: cs'') by
              simp [replaceNonWordRuns, hd]]
            rw [ih]
            simp [replaceNonWordUnderscoreRuns, hcp, hdp]
        · have hdb : isWordChar d = false := bool_eq_false hd
          have hdp : isPlainWordChar d = false := by
            rw [plainWordChar_eq_wordChar d (ne_underscore_of_not_wordChar d hdb)]; exact hdb
          rw [show replaceNonWordRuns (c :: d :: cs'') = replaceNonWordRuns (d :: cs'') by
            simp [replaceNonWordRuns, hcb, hdb]]
          rw [ih]
          simp [replaceNonWordUnderscoreRuns, hcp, hdp]

theorem collapse_dropWhile (x : List Char) :
    collapseUnderscores (x.dropWhile (fun c => c = '_')) =
      (collapseUnderscores x).dropWhile (fun c => c = '_') := by
  induction x with
  | nil => rfl
  | cons c cs ih =>
    by_cases hc : c = '_'
    · subst hc
      rw [show List.dropWhile (fun c => c = '_') ('_' :: cs) =
          List.dropWhile (fun c => c = '_') cs by simp [List.dropWhile]]
      cases cs with
      | nil => simp [collapseUnderscores, List.dropWhile]
      | cons d cs' =>
        by_cases hd : d = '_'
        · subst hd
          rw [collapse_us_us]
          exact ih
        · rw [collapse_cons_head_ne _ d _ rfl hd]
          rw [show List.dropWhile (fun c => c = '_') ('_' :: collapseUnderscores (d :: cs')) =
            List.dropWhile (fun c => c = '_') (collapseUnderscores (d :: cs')) by
              simp [List.dropWhile]]
          exact ih
    · rw [show List.dropWhile (fun c => c = '_') (c :: cs) = c :: cs by
        simp [List.dropWhile, hc]]
      rw [collapse_cons_of_ne c _ hc]
      rw [show List.dropWhile (fun c => c = '_') (c :: collapseUnderscores cs) =
        c :: collapseUnderscores cs by simp [List.dropWhile, hc]]

theorem all_underscore_collapse (x : List Char) (h : ∀ a ∈ x, a = '_') :
    ∀ a ∈ collapseUnderscores x, a = '_' :=
  fun a ha => h a ((collapse_sublist x).mem ha)

theorem collapse_cons_cons (c d : Char) (ys : List Char) (h : ¬ (c = '_' ∧ d = '_')) :
    collapseUnderscores (c :: d :: ys) = c :: collapseUnderscores (d :: ys) := by
  simp [collapseUnderscores, h]

theorem collapse_dropTrailing (x : List Char) :
    collapseUnderscores (dropTrailing (fun c => c = '_') x) =
      dropTrailing (fun c => c = '_') (collapseUnderscores x) := by
  induction x with
  | nil => rfl
  | cons c cs ih =>
    by_cases hA : (c = '_') ∧ dropTrailing (fun c => c = '_') cs = []
    · obtain ⟨hc, hnil⟩ := hA
      subst hc
      have hall : ∀ a ∈ cs, a = '_' := by
        have h1 := (dropTrailing_eq_nil_iff (fun c => c = '_') cs).mp hnil
        intro a ha
        simpa using h1 a ha
      have hall2 : ∀ a ∈ collapseUnderscores ('_' :: cs), a = '_' := by
        refine all_underscore_collapse _ ?_
        intro a ha
        rcases List.mem_cons.mp ha with rfl | h2
        · rfl
        · exact hall a h2
      rw [show dropTrailing (fun c => c = '_') ('_' :: cs) = [] by
        rw [dropTrailing_eq_nil_iff]
        intro a ha
        rcases List.mem_cons.mp ha with rfl | h2
        · simp
        · simp [hall a h2]]
      rw [show dropTrailing (fun c => c = '_') (collapseUnderscores ('_' :: cs)) = [] by
        rw [dropTrailing_eq_nil_iff]
        intro a ha
        simp [hall2 a ha]]
      rfl
    · have hstep : dropTrailing (fun c => c = '_') (c :: cs) =
          c :: dropTrailing (fun c => c = '_') cs := by
        rw [dropTrailing]
        split
        · next hcon => exact absurd (by simpa using hcon) hA
        · rfl
      rw [hstep]
      cases cs with
      | nil =>
        have hcne : ¬ c = '_' := fun hc => hA ⟨hc, rfl⟩
        simp [collapseUnderscores, dropTrailing, hcne]
      | cons d cs' =>
        by_cases hT : dropTrailing (fun c => c = '_') (d :: cs') = []
        · -- the tail is all underscores, hence d = underscore and c is not
          have hd : d = '_' := by
            have h1 := (dropTrailing_eq_nil_iff (fun c => c = '_') (d :: cs')).mp hT
            simpa using h1 d (by simp)
          have hcne : ¬ c = '_' := fun hc => hA ⟨hc, hT⟩
          have htail : ∀ a ∈ d :: cs', a = '_' := by
            have h1 := (dropTrailing_eq_nil_iff (fun c => c = '_') (d :: cs')).mp hT
            intro a ha
            simpa using h1 a ha
          rw [hT]
          rw [collapse_cons_cons c d cs' (fun hcd => hcne hcd.1)]
          rw [show collapseUnderscores [c] = [c] from rfl]
          have hcollall : ∀ a ∈ collapseUnderscores (d :: cs'), a = '_' :=
            all_underscore_collapse _ htail
          rw [dropTrailing]
          rw [if_neg (by simp [hcne])]
          rw [show dropTrailing (fun c => c = '_') (collapseUnderscores (d :: cs')) = [] by
            rw [dropTrailing_eq_nil_iff]
            intro a ha
            simp [hcollall a ha]]
        · -- the tail survives trailing-stripping
          have hstep2 : dropTrailing (fun c => c = '_') (d :: cs') =
              d :: dropTrailing (fun c => c = '_') cs' := by
            rw [dropTrailing]
            rw [if_neg]
            intro hcon
            exact hT (by rw [dropTrailing]; simp [hcon.1, hcon.2])
          by_cases hcd : c = '_' ∧ d = '_'
          · obtain ⟨hc, hd⟩ := hcd
            subst hc; subst hd
            rw [hstep2, collapse_us_us, collapse_us_us, ← hstep2]
            exact ih
          · rw [hstep2, collapse_cons_cons c d _ hcd, ← hstep2, ih,
              collapse_cons_cons c d cs' hcd]
            have hnn : dropTrailing (fun c => c = '_')
                (collapseUnderscores (d :: cs')) ≠ [] := by
              rw [← ih]
              exact collapse_ne_nil _ (by rw [hstep2]; simp)
            rw [dropTrailing, if_neg (by intro hcon; exact hnn hcon.2)]

theorem string_mk_ne_empty (cs : List Char) (h : cs ≠ []) : String.mk cs ≠ "" := by
  intro hcon
  exact h (by simpa using congrArg String.data hcon)


/-- C10, counterexample: both underscores of `"a__b"` are word characters,
so under the claimed description the stored id would keep them
(`"a__b"` has no run of non-word characters and no edge underscores), but
`_sanitize_id` collapses the run and stores `"a_b"`. -/
theorem sanitize_id_claim_counterexample :
    sanitizeId "a__b" = "a_b" ∧ sanitizeIdClaim "a__b" = "a__b" ∧
    sanitizeId "a__b" ≠ sanitizeIdClaim "a__b" := by
  refine ⟨by decide, by decide, by decide⟩

/-- C10, amended: for every id string (including the empty string) the stored
node id equals the amended sanitization — lowercase the id, replace every
maximal run of characters that are non-word characters *or underscores* by a
single underscore, strip leading and trailing underscores, and store "node"
for any input that sanitizes to the empty string — and the stored id is
always non-empty. -/
theorem sanitize_id_amended (id : String) :
    sanitizeId id = sanitizeIdAmended id ∧ sanitizeId id ≠ "" := by
  have key : ∀ ls : List Char,
      collapseUnderscores (dropTrailing (fun c => c = '_')
        ((replaceNonWordRuns ls).dropWhile (fun c => c = '_'))) =
      dropTrailing (fun c => c = '_')
        ((replaceNonWordUnderscoreRuns ls).dropWhile (fun c => c = '_')) := by
    intro ls
    rw [collapse_dropTrailing, collapse_dropWhile, collapse_rnw]
  constructor
  · unfold sanitizeId sanitizeIdAmended
    by_cases h : id.isEmpty
    · simp [h]
    · simp only [h, if_false, Bool.false_eq_true]
      rw [key]
  · unfold sanitizeId
    by_cases h : id.isEmpty
    · simp [h]
    · simp only [h, if_false, Bool.false_eq_true]
      split
      · exact string_mk_ne_empty _ (by simp)
      · next hne =>
        exact string_mk_ne_empty _ (by simpa using hne)

/-- Witness for `sanitize_id_amended` at the id `"Climate  Change!"`. -/
theorem sanitize_id_amended_witness :
    sanitizeId "Climate  Change!" = sanitizeIdAmended "Climate  Change!" ∧
    sanitizeId "Climate  Change!" ≠ "" :=
  sanitize_id_amended "Climate  Change!"

/-! ### C6 lemmas: Python word splitting -/

-- a "good word" is a nonempty token with no whitespace characters
theorem foldr_wordStep_cons (w : List Char) (a : List Char) (rest : List (List Char))
    (hw : w ≠ []) (hns : ∀ c ∈ w, pyIsSpace c = false) :
    w.foldr wordStep (a :: rest) = (w ++ a) :: rest := by
  induction w with
  | nil => exact absurd rfl hw
  | cons c w' ih =>
    cases w' with
    | nil =>
      simp [wordStep, hns c (by simp)]
    | cons d w'' =>
      rw [List.foldr_cons, ih (by simp) (fun x hx => hns x (by simp [List.mem_cons] at hx ⊢; tauto))]
      simp [wordStep, hns c (by simp)]

theorem foldr_wordStep_nil (w : List Char) (hw : w ≠ [])
    (hns : ∀ c ∈ w, pyIsSpace c = false) :
    w.foldr wordStep [] = [w] := by
  induction w with
  | nil => exact absurd rfl hw
  | cons c w' ih =>
    cases w' with
    | nil => simp [wordStep, hns c (by simp)]
    | cons d w'' =>
      rw [List.foldr_cons, ih (by simp) (fun x hx => hns x (by simp [List.mem_cons] at hx ⊢; tauto))]
      simp [wordStep, hns c (by simp)]

theorem wordToks_cons (c : Char) (cs : List Char) :
    wordToks (c :: cs) = wordStep c (wordToks cs) := rfl

theorem wordToks_chars (cs : List Char) :
    ∀ w ∈ wordToks cs, ∀ c ∈ w, pyIsSpace c = false := by
  induction cs with
  | nil => simp [wordToks]
  | cons c cs ih =>
    intro w hw
    rw [wordToks_cons] at hw
    unfold wordStep at hw
    by_cases hsp : pyIsSpace c = true
    · rw [if_pos hsp] at hw
      rcases List.mem_cons.mp hw with rfl | hw2
      · simp
      · exact ih w hw2
    · rw [if_neg hsp] at hw
      have hcf : pyIsSpace c = false := by simpa using hsp
      revert hw
      cases hh : wordToks cs with
      | nil =>
        intro hw
        rcases List.mem_cons.mp (show w ∈ [[c]] from hw) with rfl | hw2
        · intro x hx
          rcases List.mem_cons.mp hx with rfl | hx2
          · exact hcf
          · exact absurd hx2 (List.not_mem_nil x)
        · exact absurd hw2 (List.not_mem_nil w)
      | cons a rest =>
        intro hw
        rcases List.mem_cons.mp (show w ∈ (c :: a) :: rest from hw) with rfl | hw2
        · intro x hx
          rcases List.mem_cons.mp hx with rfl | hx2
          · exact hcf
          · exact ih a (by rw [hh]; simp) x hx2
        · exact ih w (by rw [hh]; simp [hw2])

theorem pyWords_good (cs : List Char) :
    ∀ w ∈ pyWords cs, w ≠ [] ∧ ∀ c ∈ w, pyIsSpace c = false := by
  intro w hw
  unfold pyWords at hw
  have h1 := List.mem_filter.mp hw
  refine ⟨by simpa using h1.2, wordToks_chars cs w h1.1⟩

theorem pyWords_cons_space (c : Char) (cs : List Char) (h : pyIsSpace c = true) :
    pyWords (c :: cs) = pyWords cs := by
  unfold pyWords
  rw [wordToks_cons]
  unfold wordStep
  rw [if_pos h]
  simp

theorem filter_nonempty_cons (w : List Char) (X : List (List Char)) (h : w ≠ []) :
    List.filter (fun w => ¬ w.isEmpty) (w :: X) = w :: List.filter (fun w => ¬ w.isEmpty) X := by
  cases w with
  | nil => exact absurd rfl h
  | cons c cs => simp [List.filter]

theorem wordToks_append (xs ys : List Char) :
    wordToks (xs ++ ys) = xs.foldr wordStep (wordToks ys) :=
  List.foldr_append wordStep [] xs ys

theorem pyWords_joinSpace (ws : List (List Char))
    (hg : ∀ w ∈ ws, w ≠ [] ∧ ∀ c ∈ w, pyIsSpace c = false) :
    pyWords (joinSpace ws) = ws := by
  induction ws with
  | nil => rfl
  | cons w ws ih =>
    cases ws with
    | nil =>
      have hw := hg w (by simp)
      show List.filter (fun w => ¬ w.isEmpty) (wordToks (joinSpace [w])) = [w]
      rw [show joinSpace [w] = w from rfl,
        show wordToks w = List.foldr wordStep [] w from rfl,
        foldr_wordStep_nil w hw.1 hw.2,
        filter_nonempty_cons w [] hw.1]
      rfl
    | cons w2 ws' =>
      have hw := hg w (by simp)
      have ih2 := ih (fun x hx => hg x (by simp [List.mem_cons] at hx ⊢; tauto))
      show List.filter (fun w => ¬ w.isEmpty) (wordToks (joinSpace (w :: w2 :: ws'))) =
        w :: w2 :: ws'
      rw [show joinSpace (w :: w2 :: ws') = w ++ ' ' :: joinSpace (w2 :: ws') from rfl,
        wordToks_append,
        show wordToks (' ' :: joinSpace (w2 :: ws')) = [] :: wordToks (joinSpace (w2 :: ws')) by
          rw [wordToks_cons]
          unfold wordStep
          rw [if_pos (by decide)],
        foldr_wordStep_cons w _ _ hw.1 hw.2,
        List.append_nil,
        filter_nonempty_cons w _ hw.1]
      unfold pyWords at ih2
      rw [ih2]

theorem joinSpace_snoc_append (ws : List (List Char)) (w' e : List Char) :
    joinSpace (ws ++ [w']) ++ e = joinSpace (ws ++ [w' ++ e]) := by
  induction ws with
  | nil => rfl
  | cons w ws ih =>
    cases ws with
    | nil =>
      show (w ++ ' ' :: w') ++ e = w ++ ' ' :: (w' ++ e)
      simp
    | cons w2 ws' =>
      show (w ++ ' ' :: joinSpace ((w2 :: ws') ++ [w'])) ++ e =
        w ++ ' ' :: joinSpace ((w2 :: ws') ++ [w' ++ e])
      rw [List.append_assoc, List.cons_append, ih]

theorem pyWords_dropWhile_space (x : List Char) :
    pyWords (x.dropWhile pyIsSpace) = pyWords x := by
  induction x with
  | nil => rfl
  | cons c cs ih =>
    by_cases h : pyIsSpace c = true
    · rw [show List.dropWhile pyIsSpace (c :: cs) = List.dropWhile pyIsSpace cs by
        simp [List.dropWhile, h]]
      rw [ih, pyWords_cons_space c cs h]
    · rw [show List.dropWhile pyIsSpace (c :: cs) = c :: cs by
        simp [List.dropWhile_cons, h]]

theorem dropTrailing_decomp (p : Char → Bool) (x : List Char) :
    ∃ s, x = dropTrailing p x ++ s ∧ ∀ a ∈ s, p a = true := by
  induction x with
  | nil => exact ⟨[], rfl, by simp⟩
  | cons c cs ih =>
    obtain ⟨s, hs, hps⟩ := ih
    by_cases h : p c ∧ dropTrailing p cs = []
    · refine ⟨c :: cs, ?_, ?_⟩
      · rw [show dropTrailing p (c :: cs) = [] by rw [dropTrailing, if_pos h]]
        rfl
      · intro a ha
        rcases List.mem_cons.mp ha with rfl | ha2
        · exact h.1
        · rw [hs] at ha2
          rw [h.2] at ha2
          simpa using hps a ha2
    · refine ⟨s, ?_, hps⟩
      rw [show dropTrailing p (c :: cs) = c :: dropTrailing p cs by
        rw [dropTrailing, if_neg h]]
      rw [List.cons_append, ← hs]

theorem wordToks_all_space (s : List Char) (h : ∀ a ∈ s, pyIsSpace a = true) :
    wordToks s = List.replicate s.length [] := by
  induction s with
  | nil => rfl
  | cons c cs ih =>
    rw [wordToks_cons, ih (fun a ha => h a (by simp [ha]))]
    unfold wordStep
    rw [if_pos (h c (by simp))]
    rfl

theorem foldr_wordStep_replicate (y : List Char) (m : ℕ) :
    ∃ k, y.foldr wordStep (List.replicate m []) = y.foldr wordStep [] ++ List.replicate k [] := by
  induction y with
  | nil => exact ⟨m, by simp⟩
  | cons c y' ih =>
    obtain ⟨k, hk⟩ := ih
    rw [List.foldr_cons, List.foldr_cons, hk]
    by_cases hsp : pyIsSpace c = true
    · refine ⟨k, ?_⟩
      unfold wordStep
      rw [if_pos hsp, if_pos hsp]
      rfl
    · cases hy : y'.foldr wordStep [] with
      | nil =>
        cases k with
        | zero =>
          refine ⟨0, ?_⟩
          unfold wordStep
          rw [if_neg hsp, if_neg hsp]
          simp
        | succ k' =>
          refine ⟨k', ?_⟩
          unfold wordStep
          rw [if_neg hsp, if_neg hsp]
          simp [List.replicate_succ]
      | cons a rest =>
        refine ⟨k, ?_⟩
        unfold wordStep
        rw [if_neg hsp, if_neg hsp]
        simp

theorem pyWords_append_all_space (y s : List Char) (h : ∀ a ∈ s, pyIsSpace a = true) :
    pyWords (y ++ s) = pyWords y := by
  unfold pyWords
  rw [wordToks_append, wordToks_all_space s h]
  obtain ⟨k, hk⟩ := foldr_wordStep_replicate y s.length
  rw [hk]
  rw [show wordToks y = y.foldr wordStep [] from rfl]
  rw [List.filter_append]
  simp

theorem pyWords_pyStrip (x : List Char) :
    pyWords (pyStrip x) = pyWords x := by
  unfold pyStrip
  obtain ⟨s, hs, hps⟩ := dropTrailing_decomp pyIsSpace (x.dropWhile pyIsSpace)
  have h1 : pyWords (x.dropWhile pyIsSpace) =
      pyWords (dropTrailing pyIsSpace (x.dropWhile pyIsSpace)) := by
    conv_lhs => rw [hs]
    exact pyWords_append_all_space _ s hps
  rw [← h1, pyWords_dropWhile_space]

theorem sanitizeLabel_spec (s : String) :
    sanitizeLabel s ≠ "" ∧ (pyWords (sanitizeLabel s).toList).length ≤ 10 := by
  have huntitled : ("Untitled" : String) ≠ "" ∧
      (pyWords ("Untitled" : String).toList).length ≤ 10 := ⟨by decide, by decide⟩
  have hgood : ∀ w ∈ pyWords (labelCleaned s), w ≠ [] ∧ ∀ c ∈ w, pyIsSpace c = false :=
    pyWords_good (labelCleaned s)
  have htrunc : (pyWords (labelTruncated s)).length ≤ 10 := by
    unfold labelTruncated
    by_cases hlen : 10 < (pyWords (labelCleaned s)).length
    · rw [if_pos hlen]
      have h9 : (pyWords (labelCleaned s)).take 10 =
          (pyWords (labelCleaned s)).take 9 ++ [(pyWords (labelCleaned s))[9]] := by
        rw [List.take_succ, List.getElem?_eq_getElem (by omega)]
        rfl
      rw [h9, joinSpace_snoc_append, pyWords_joinSpace]
      · simp only [List.length_append, List.length_take, List.length_cons, List.length_nil]
        omega
      · intro w hw
        rcases List.mem_append.mp hw with hw1 | hw2
        · exact hgood w (List.take_subset 9 _ hw1)
        · rw [List.mem_singleton.mp hw2]
          have hg9 := hgood ((pyWords (labelCleaned s))[9])
            (List.getElem_mem (by omega))
          refine ⟨by simp [hg9.1], ?_⟩
          intro c hc
          rcases List.mem_append.mp hc with hc1 | hc2
          · exact hg9.2 c hc1
          · have hdot : c = '.' := by simpa using hc2
            subst hdot
            decide
    · rw [if_neg hlen]
      omega
  unfold sanitizeLabel
  by_cases h0 : s.isEmpty
  · rw [if_pos h0]
    exact huntitled
  · rw [if_neg h0]
    by_cases he : (pyStrip (labelTruncated s)).isEmpty
    · rw [if_pos he]
      exact huntitled
    · rw [if_neg he]
      refine ⟨string_mk_ne_empty _ (by simpa using he), ?_⟩
      show (pyWords (pyStrip (labelTruncated s))).length ≤ 10
      rw [pyWords_pyStrip]
      exact htrunc

/-! ### Builder lemmas -/

theorem seqExcept_ok_elim (xs : List (Except Unit MNode)) (ys : List MNode)
    (h : seqExcept xs = .ok ys) : xs = ys.map Except.ok := by
  induction xs generalizing ys with
  | nil =>
    cases ys with
    | nil => rfl
    | cons y ys' => exact absurd h (by simp [seqExcept])
  | cons x xs ih =>
    cases x with
    | error e => exact absurd h (by simp [seqExcept])
    | ok a =>
      cases hs : seqExcept xs with
      | error e =>
        rw [show seqExcept (Except.ok a :: xs) = .error e by simp [seqExcept, hs]] at h
        exact absurd h (by simp)
      | ok as =>
        rw [show seqExcept (Except.ok a :: xs) = .ok (a :: as) by simp [seqExcept, hs]] at h
        have hys : a :: as = ys := by simpa using h
        subst hys
        rw [List.map_cons, ← ih as hs]

theorem seqExcept_isOk (xs : List (Except Unit MNode))
    (h : ∀ x ∈ xs, x.isOk = true) : (seqExcept xs).isOk = true := by
  induction xs with
  | nil => rfl
  | cons x xs ih =>
    have hx := h x (by simp)
    cases x with
    | error e => simp [Except.isOk, Except.toBool] at hx
    | ok a =>
      have hxs := ih (fun y hy => h y (by simp [hy]))
      cases hs : seqExcept xs with
      | error e => rw [hs] at hxs; simp [Except.isOk, Except.toBool] at hxs
      | ok as => simp [seqExcept, hs, Except.isOk, Except.toBool]

theorem le_foldr_max (ls : List ℕ) : ∀ x ∈ ls, x ≤ ls.foldr max 0 := by
  induction ls with
  | nil => simp
  | cons a ls ih =>
    intro x hx
    rcases List.mem_cons.mp hx with rfl | hx2
    · simp
    · exact le_trans (ih x hx2) (by simp)

theorem mem_pyUnique (ls : List ℕ) (x : ℕ) : x ∈ pyUnique ls ↔ x ∈ ls := by
  unfold pyUnique
  rw [List.mem_filter]
  constructor
  · intro h
    simpa using h.2
  · intro h
    refine ⟨List.mem_range.mpr ?_, by simpa using h⟩
    exact Nat.lt_succ_of_le (le_foldr_max ls x h)

theorem nodup_pyUnique (ls : List ℕ) : (pyUnique ls).Nodup :=
  (List.nodup_range _).filter _

theorem pyUnique_ne_nil (ls : List ℕ) (h : ls ≠ []) : pyUnique ls ≠ [] := by
  cases ls with
  | nil => exact absurd rfl h
  | cons a ls' =>
    intro hcon
    have : a ∈ pyUnique (a :: ls') := (mem_pyUnique _ a).mpr (by simp)
    rw [hcon] at this
    exact absurd this (List.not_mem_nil a)

theorem select_sublist (segs ls : List ℕ) (lab : ℕ) (hlen : ls.length = segs.length) :
    (selectByLabel segs ls lab).Sublist segs := by
  unfold selectByLabel
  have h1 : (List.filter (fun p => p.2 == lab) (segs.zip ls)).Sublist (segs.zip ls) :=
    List.filter_sublist _
  have h2 := h1.map Prod.fst
  rwa [List.map_fst_zip segs ls (le_of_eq hlen.symm)] at h2

theorem filter_label_flatten_perm (L : List ℕ) (ps : List (ℕ × ℕ)) (hnd : L.Nodup)
    (hcov : ∀ p ∈ ps, p.2 ∈ L) :
    ((L.map (fun lab => ps.filter (fun p => p.2 == lab))).flatten).Perm ps := by
  induction L generalizing ps with
  | nil =>
    cases ps with
    | nil => simp
    | cons p ps' => exact absurd (hcov p (by simp)) (List.not_mem_nil _)
  | cons a L' ih =>
    have hnd' : L'.Nodup := hnd.of_cons
    have hna : a ∉ L' := by
      intro hmem
      exact (List.nodup_cons.mp hnd).1 hmem
    rw [List.map_cons, List.flatten_cons]
    have hres : ∀ lab ∈ L', ps.filter (fun p => p.2 == lab) =
        (ps.filter (fun p => ¬ p.2 == a)).filter (fun p => p.2 == lab) := by
      intro lab hlab
      have hla : lab ≠ a := fun h => hna (h ▸ hlab)
      rw [List.filter_filter]
      apply List.filter_congr
      intro p hp
      by_cases hpl : p.2 = lab
      · simp [hpl, hla]
      · simp [hpl]
    rw [List.map_congr_left hres]
    have ihr := ih (ps.filter (fun p => ¬ p.2 == a)) hnd' ?cov
    case cov =>
      intro p hp
      have h1 := List.mem_filter.mp hp
      have h2 := hcov p h1.1
      rcases List.mem_cons.mp h2 with h3 | h3
      · have hne : ¬ (p.2 = a) := by simpa using h1.2
        exact absurd h3 hne
      · exact h3
    have hfa := List.filter_append_perm (fun p => p.2 == a) ps
    have hresid : ps.filter (fun p => ¬ p.2 == a) =
        ps.filter (fun x => !((fun p => p.2 == a) x)) := by
      apply List.filter_congr
      intro p hp
      by_cases h : p.2 = a <;> simp [h]
    refine List.Perm.trans (List.Perm.append_left _ ihr) ?_
    rw [hresid]
    exact hfa

theorem select_flatten_perm (segs ls : List ℕ) (hlen : ls.length = segs.length) :
    (((pyUnique ls).map (selectByLabel segs ls)).flatten).Perm segs := by
  unfold selectByLabel
  have hperm := filter_label_flatten_perm (pyUnique ls) (segs.zip ls) (nodup_pyUnique ls) ?cov
  case cov =>
    intro p hp
    exact (mem_pyUnique ls p.2).mpr (List.of_mem_zip hp).2
  have hmap := hperm.map Prod.fst
  rw [List.map_fst_zip segs ls (le_of_eq hlen.symm)] at hmap
  have heq : ((pyUnique ls).map (fun lab =>
        ((segs.zip ls).filter (fun p => p.2 == lab)).map Prod.fst)).flatten =
      (((pyUnique ls).map (fun lab =>
        (segs.zip ls).filter (fun p => p.2 == lab))).flatten).map Prod.fst := by
    rw [List.map_flatten, List.map_map]
    rfl
  rw [heq]
  exact hmap

theorem map_ok_length {F : ℕ → Except Unit MNode} {L : List ℕ} {cs : List MNode}
    (h : L.map F = cs.map Except.ok) : cs.length = L.length := by
  have := congrArg List.length h
  simpa using this.symm

theorem map_ok_mem {F : ℕ → Except Unit MNode} {L : List ℕ} {cs : List MNode}
    (h : L.map F = cs.map Except.ok) : ∀ c ∈ cs, ∃ lab ∈ L, F lab = .ok c := by
  induction L generalizing cs with
  | nil =>
    cases cs with
    | nil => simp
    | cons c cs' => exact absurd h (by simp)
  | cons a L' ih =>
    cases cs with
    | nil => exact absurd h (by simp)
    | cons c cs' =>
      simp only [List.map_cons, List.cons.injEq] at h
      intro d hd
      rcases List.mem_cons.mp hd with rfl | hd2
      · exact ⟨a, by simp, h.1⟩
      · obtain ⟨lab, hlab, hF⟩ := ih h.2 d hd2
        exact ⟨lab, by simp [hlab], hF⟩

theorem map_ok_map {F : ℕ → Except Unit MNode} {L : List ℕ} {cs : List MNode}
    (h : L.map F = cs.map Except.ok) (g : MNode → List ℕ) (sel : ℕ → List ℕ)
    (hg : ∀ lab c, F lab = .ok c → g c = sel lab) : cs.map g = L.map sel := by
  induction L generalizing cs with
  | nil =>
    cases cs with
    | nil => rfl
    | cons c cs' => exact absurd h (by simp)
  | cons a L' ih =>
    cases cs with
    | nil => exact absurd h (by simp)
    | cons c cs' =>
      simp only [List.map_cons, List.cons.injEq] at h ⊢
      exact ⟨hg a c h.1, ih h.2⟩

theorem mem_allNodes_iff (u t : MNode) :
    u ∈ allNodes t ↔ u = t ∨ ∃ c ∈ t.children, u ∈ allNodes c := by
  cases t with
  | mk i l m cs =>
    rw [show allNodes (.mk i l m cs) =
        MNode.mk i l m cs :: (cs.attach.map (fun c => allNodes c.1)).flatten from by
      rw [allNodes]]
    rw [List.mem_cons, List.mem_flatten]
    constructor
    · rintro (rfl | ⟨xs, hxs, hu⟩)
      · exact Or.inl rfl
      · obtain ⟨⟨c, hc⟩, _, rfl⟩ := List.mem_map.mp hxs
        exact Or.inr ⟨c, hc, hu⟩
    · rintro (rfl | ⟨c, hc, hu⟩)
      · exact Or.inl rfl
      · refine Or.inr ⟨allNodes c, ?_, hu⟩
        exact List.mem_map.mpr ⟨⟨c, hc⟩, List.mem_attach _ _, rfl⟩

theorem self_mem_allNodes (t : MNode) : t ∈ allNodes t :=
  (mem_allNodes_iff t t).mpr (Or.inl rfl)

theorem recursiveCluster_ok_shape (fp : ℕ → List ℕ → Except Unit (List ℕ))
    (lblGen : List ℕ → String) (mdb msb : ℤ) (ratioQ : ℚ)
    (fuel : ℕ) (segs : List ℕ) (depth : ℕ) (cid : String) (t : MNode)
    (h : recursiveCluster fp lblGen mdb msb ratioQ fuel segs depth cid = .ok t) :
    t.members = segs ∧ t.label = sanitizeLabel (lblGen segs) ∧ t.id = cid := by
  cases fuel with
  | zero => exact absurd h (by simp [recursiveCluster])
  | succ f =>
    rw [recursiveCluster] at h
    split at h
    · have ht : MNode.mk cid (sanitizeLabel (lblGen segs)) segs [] = t := by simpa using h
      subst ht
      exact ⟨rfl, rfl, rfl⟩
    · split at h
      · have ht : MNode.mk cid (sanitizeLabel (lblGen segs)) segs [] = t := by simpa using h
        subst ht
        exact ⟨rfl, rfl, rfl⟩
      · split at h
        · split at h
          · next cs hseq =>
            have ht : MNode.mk cid (sanitizeLabel (lblGen segs)) segs cs = t := by simpa using h
            subst ht
            exact ⟨rfl, rfl, rfl⟩
          · exact absurd h (by simp)
        · exact absurd h (by simp)

theorem shouldContinue_true_iff (n depth : ℕ) (maxD minS : ℤ) :
    shouldContinueClustering n depth maxD minS = true ↔
      (minS ≤ (n : ℤ) ∧ (depth : ℤ) < maxD) := by
  unfold shouldContinueClustering
  by_cases h1 : (n : ℤ) < minS
  · rw [if_pos h1]
    constructor
    · intro hcon
      exact absurd hcon (by simp)
    · intro hcon
      omega
  · rw [if_neg h1]
    by_cases h2 : maxD ≤ (depth : ℤ)
    · rw [if_pos h2]
      constructor
      · intro hcon
        exact absurd hcon (by simp)
      · intro hcon
        omega
    · rw [if_neg h2]
      constructor
      · intro _
        exact ⟨by omega, by omega⟩
      · intro _
        rfl

theorem calcParams_minSize_pos (n depth : ℕ) (mdb msb : ℤ) (ratioQ : ℚ) :
    1 ≤ (calculateDynamicParams n depth mdb msb ratioQ).2 := by
  unfold calculateDynamicParams
  have h1 : (1 : ℤ) ≤ max 1 (pyTrunc ((n : ℚ) * ratioQ)) := le_max_left 1 _
  exact le_trans h1 (le_max_left _ msb)

theorem calcParams_maxDepth_le (n depth : ℕ) (mdb msb : ℤ) (ratioQ : ℚ) :
    (calculateDynamicParams n depth mdb msb ratioQ).1 ≤ max 1 mdb := by
  unfold calculateDynamicParams
  have h1 : mdb - ((depth / 2 : ℕ) : ℤ) ≤ mdb := by
    have : (0 : ℤ) ≤ ((depth / 2 : ℕ) : ℤ) := Int.ofNat_nonneg _
    omega
  simp only [max_le_iff]
  exact ⟨le_max_left 1 mdb, le_trans h1 (le_max_right 1 mdb)⟩

theorem continue_depth_lt (n depth : ℕ) (mdb msb : ℤ) (ratioQ : ℚ)
    (h : shouldContinueClustering n depth
      (calculateDynamicParams n depth mdb msb ratioQ).1
      (calculateDynamicParams n depth mdb msb ratioQ).2 = true) :
    depth < (max 1 mdb).toNat ∧ 1 ≤ n := by
  obtain ⟨hmin, hdep⟩ := (shouldContinue_true_iff _ _ _ _).mp h
  constructor
  · have hlt : (depth : ℤ) < max 1 mdb :=
      lt_of_lt_of_le hdep (calcParams_maxDepth_le n depth mdb msb ratioQ)
    exact Int.lt_toNat.mpr hlt
  · have h1 : (1 : ℤ) ≤ (n : ℤ) :=
      le_trans (calcParams_minSize_pos n depth mdb msb ratioQ) hmin
    exact_mod_cast h1

/-- C5, confirmed: assuming the external partitioner returns one label per
row whenever it succeeds (`hfp`, the sklearn `fit_predict` contract) and
enough fuel for the Python recursion (`h1`, `h2`, satisfied by
`fuel = max 1 maxDepthBase + 1` at `depth = 0`), the build always returns a
tree (first conjunct: a clustering failure at any node never makes the
overall build fail), and a node whose partitioning call throws is returned
as a leaf holding exactly that node's member segments instead of
propagating the exception (second conjunct). -/
theorem recursive_cluster_failure_isolated
    (fp : ℕ → List ℕ → Except Unit (List ℕ)) (lblGen : List ℕ → String)
    (mdb msb : ℤ) (ratioQ : ℚ)
    (hfp : ∀ k rows ls, fp k rows = .ok ls → ls.length = rows.length)
    (fuel : ℕ) (segs : List ℕ) (depth : ℕ) (cid : String)
    (h1 : (max 1 mdb).toNat < depth + fuel) (h2 : 0 < fuel) :
    (recursiveCluster fp lblGen mdb msb ratioQ fuel segs depth cid).isOk = true ∧
    (clusterEmbeddings fp segs depth = .error () →
      recursiveCluster fp lblGen mdb msb ratioQ fuel segs depth cid =
        .ok (.mk cid (sanitizeLabel (lblGen segs)) segs [])) := by
  induction fuel generalizing segs depth cid with
  | zero => omega
  | succ f ih =>
    rw [recursiveCluster]
    split
    · exact ⟨rfl, fun _ => rfl⟩
    · next hstop =>
      have hcont : shouldContinueClustering segs.length depth
          (calculateDynamicParams segs.length depth mdb msb ratioQ).1
          (calculateDynamicParams segs.length depth mdb msb ratioQ).2 = true := by
        cases hb : shouldContinueClustering segs.length depth
            (calculateDynamicParams segs.length depth mdb msb ratioQ).1
            (calculateDynamicParams segs.length depth mdb msb ratioQ).2
        · exact absurd hb hstop
        · rfl
      split
      · next e hce =>
        exact ⟨rfl, fun _ => rfl⟩
      · next ls hce =>
        have hlen : ls.length = segs.length := by
          unfold clusterEmbeddings at hce
          exact hfp _ _ _ hce
        rw [if_pos hlen]
        have hdb := continue_depth_lt segs.length depth mdb msb ratioQ hcont
        have hchild : ∀ x ∈ (pyUnique ls).map (fun lab =>
            recursiveCluster fp lblGen mdb msb ratioQ f (selectByLabel segs ls lab)
              (depth + 1) (cid ++ "_" ++ toString lab)), x.isOk = true := by
          intro x hx
          obtain ⟨lab, _, rfl⟩ := List.mem_map.mp hx
          exact (ih (selectByLabel segs ls lab) (depth + 1)
            (cid ++ "_" ++ toString lab) (by omega) (by omega)).1
        have hseq := seqExcept_isOk _ hchild
        split
        · refine ⟨rfl, fun hcon => ?_⟩
          rw [hce] at hcon
          exact absurd hcon (by simp)
        · next e hs =>
          rw [hs] at hseq
          exact absurd hseq (by simp [Except.isOk, Except.toBool])

theorem fpModel_length (k : ℕ) (rows ls : List ℕ) (h : fpModel k rows = .ok ls) :
    ls.length = rows.length := by
  unfold fpModel at h
  split at h
  · exact absurd h (by simp)
  · have : (List.range rows.length).map (fun i => i % k) = ls := by simpa using h
    rw [← this]
    simp

theorem calcParams_ratio_zero (n depth : ℕ) (mdb msb : ℤ) :
    calculateDynamicParams n depth mdb msb 0 =
      (max 1 (mdb - ((depth / 2 : ℕ) : ℤ)), max 1 msb) := by
  unfold calculateDynamicParams
  rw [mul_zero]
  norm_num [pyTrunc]

/-- Witness for `recursive_cluster_failure_isolated`: the sklearn-behaved
partitioner `fpModel` on a single segment at depth 0 with
`maxDepthBase = 3`, `minSizeBase = 1`, ratio 0 and fuel 4. -/
theorem recursive_cluster_failure_isolated_witness :
    (recursiveCluster fpModel (fun _ => "Topic") 3 1 0 4 [0] 0 "root").isOk = true ∧
    (clusterEmbeddings fpModel [0] 0 = .error () →
      recursiveCluster fpModel (fun _ => "Topic") 3 1 0 4 [0] 0 "root" =
        .ok (.mk "root" (sanitizeLabel ((fun _ => "Topic") [0])) [0] [])) :=
  recursive_cluster_failure_isolated fpModel (fun _ => "Topic") 3 1 0 fpModel_length
    4 [0] 0 "root" (by decide) (by decide)

/-- C3, counterexample: one segment, `baseMaxDepth = 3`, `baseMinSize = 1`,
ratio 0, at depth 0.  The stop condition does not hold
(`1 >= effectiveMinSize = 1` and `0 < effectiveMaxDepth = 3`, second
conjunct), yet the builder returns a childless leaf, because clustering one
sample into `max(2, min(2 + 0, 1)) = 2` clusters raises and the handler
demotes the node to a leaf; so "leaf only if the stop condition held" is
false on the code. -/
theorem recursive_cluster_leaf_iff_counterexample :
    recursiveCluster fpModel (fun _ => "Topic") 3 1 0 4 [0] 0 "root" =
      .ok (.mk "root" (sanitizeLabel "Topic") [0] []) ∧
    shouldContinueClustering 1 0 (calculateDynamicParams 1 0 3 1 0).1
      (calculateDynamicParams 1 0 3 1 0).2 = true := by
  constructor
  · rw [recursiveCluster]
    rw [show ([0] : List ℕ).length = 1 from rfl, calcParams_ratio_zero]
    rw [if_neg (by decide)]
    rw [show clusterEmbeddings fpModel [0] 0 = .error () from rfl]
  · rw [calcParams_ratio_zero]
    decide

/-- C3, amended: a call of the builder returns a leaf node (no children,
holding all current member segments) if and only if, at that node's
construction, `len(segments) < effectiveMinSize` or
`depth >= effectiveMaxDepth` held *or the partitioning call for that node
threw* (in which case the node is demoted to a leaf, claim C5); in
particular every leaf of a finished tree was built either under the stop
condition or from a clustering failure.  The second conjunct: every node
returned holds exactly its member segments. -/
theorem recursive_cluster_leaf_iff (fp : ℕ → List ℕ → Except Unit (List ℕ))
    (lblGen : List ℕ → String) (mdb msb : ℤ) (ratioQ : ℚ)
    (fuel : ℕ) (segs : List ℕ) (depth : ℕ) (cid : String) (t : MNode)
    (ht : recursiveCluster fp lblGen mdb msb ratioQ fuel segs depth cid = .ok t) :
    (t.children = [] ↔
      (shouldContinueClustering segs.length depth
        (calculateDynamicParams segs.length depth mdb msb ratioQ).1
        (calculateDynamicParams segs.length depth mdb msb ratioQ).2 = false ∨
       clusterEmbeddings fp segs depth = .error ())) ∧
    t.members = segs := by
  refine ⟨?_, (recursiveCluster_ok_shape fp lblGen mdb msb ratioQ fuel segs depth cid t ht).1⟩
  cases fuel with
  | zero => exact absurd ht (by simp [recursiveCluster])
  | succ f =>
    rw [recursiveCluster] at ht
    split at ht
    · next hstop =>
      have htt : MNode.mk cid (sanitizeLabel (lblGen segs)) segs [] = t := by simpa using ht
      subst htt
      simp only [MNode.children]
      exact iff_of_true trivial (Or.inl hstop)
    · next hstop =>
      have hcont : shouldContinueClustering segs.length depth
          (calculateDynamicParams segs.length depth mdb msb ratioQ).1
          (calculateDynamicParams segs.length depth mdb msb ratioQ).2 = true := by
        cases hb : shouldContinueClustering segs.length depth
            (calculateDynamicParams segs.length depth mdb msb ratioQ).1
            (calculateDynamicParams segs.length depth mdb msb ratioQ).2
        · exact absurd hb hstop
        · rfl
      split at ht
      · next e hce =>
        have htt : MNode.mk cid (sanitizeLabel (lblGen segs)) segs [] = t := by simpa using ht
        subst htt
        simp only [MNode.children]
        cases e
        exact iff_of_true trivial (Or.inr hce)
      · next ls hce =>
        split at ht
        · next hlen =>
          split at ht
          · next cs hseq =>
            have htt : MNode.mk cid (sanitizeLabel (lblGen segs)) segs cs = t := by
              simpa using ht
            subst htt
            simp only [MNode.children]
            have hmap := seqExcept_ok_elim _ _ hseq
            have hlcs := map_ok_length hmap
            have hsegs_pos : 1 ≤ segs.length :=
              (continue_depth_lt segs.length depth mdb msb ratioQ hcont).2
            have hls_ne : ls ≠ [] := by
              intro hnil
              rw [hnil] at hlen
              simp at hlen
              omega
            have hcs_ne : cs ≠ [] := by
              intro hnil
              rw [hnil] at hlcs
              have := pyUnique_ne_nil ls hls_ne
              cases hu : pyUnique ls with
              | nil => exact absurd hu this
              | cons a us =>
                rw [hu] at hlcs
                simp at hlcs
            refine iff_of_false hcs_ne ?_
            rintro (hcon | hcon)
            · rw [hcont] at hcon
              exact absurd hcon (by simp)
            · rw [hce] at hcon
              exact absurd hcon (by simp)
          · exact absurd ht (by simp)
        · exact absurd ht (by simp)

/-- Witness for `recursive_cluster_leaf_iff` on a three-segment build with
`baseMaxDepth = 3`, `baseMinSize = 2`, ratio 0 and fuel 4 (the leaf case of
the stop condition: `1 < 2`). -/
theorem recursive_cluster_leaf_iff_witness :
    ((recursiveCluster fpModel (fun _ => "Topic") 3 2 0 4 [5] 1 "root_0").toOption.getD
        (.mk "x" "x" [] [])).children = [] ∧
    shouldContinueClustering 1 1 (calculateDynamicParams 1 1 3 2 0).1
      (calculateDynamicParams 1 1 3 2 0).2 = false := by
  have ht : recursiveCluster fpModel (fun _ => "Topic") 3 2 0 4 [5] 1 "root_0" =
      .ok (.mk "root_0" (sanitizeLabel "Topic") [5] []) := by
    rw [recursiveCluster]
    rw [show ([5] : List ℕ).length = 1 from rfl, calcParams_ratio_zero]
    rw [if_pos (by decide)]
  have hstop : shouldContinueClustering 1 1 (calculateDynamicParams 1 1 3 2 0).1
      (calculateDynamicParams 1 1 3 2 0).2 = false := by
    rw [calcParams_ratio_zero]
    decide
  have hiff := recursive_cluster_leaf_iff fpModel (fun _ => "Topic") 3 2 0 4 [5] 1 "root_0"
    (.mk "root_0" (sanitizeLabel "Topic") [5] []) ht
  refine ⟨?_, hstop⟩
  rw [ht]
  exact (hiff.1).mpr (Or.inl (by rw [show ([5] : List ℕ).length = 1 from rfl]; exact hstop))

/-- C2, confirmed: in every tree produced by the Recursive Tree Builder from
distinct member indices, each node's member list is duplicate-free and, for
each internal node, the concatenation of its children's member lists is a
permutation of the parent's member list — so every member of the parent
belongs to exactly one child and no child contains a member the parent
lacks. -/
theorem recursive_cluster_member_partition (fp : ℕ → List ℕ → Except Unit (List ℕ))
    (lblGen : List ℕ → String) (mdb msb : ℤ) (ratioQ : ℚ)
    (fuel : ℕ) (segs : List ℕ) (depth : ℕ) (cid : String) (t : MNode)
    (hnd : segs.Nodup)
    (ht : recursiveCluster fp lblGen mdb msb ratioQ fuel segs depth cid = .ok t) :
    ∀ u ∈ allNodes t, u.members.Nodup ∧
      (u.children ≠ [] → ((u.children.map MNode.members).flatten).Perm u.members) := by
  induction fuel generalizing segs depth cid t with
  | zero => exact absurd ht (by simp [recursiveCluster])
  | succ f ih =>
    rw [recursiveCluster] at ht
    split at ht
    · have htt : MNode.mk cid (sanitizeLabel (lblGen segs)) segs [] = t := by simpa using ht
      subst htt
      intro u hu
      rw [mem_allNodes_iff] at hu
      rcases hu with rfl | ⟨c, hc, _⟩
      · exact ⟨hnd, fun hcon => absurd rfl hcon⟩
      · exact absurd hc (List.not_mem_nil c)
    · split at ht
      · have htt : MNode.mk cid (sanitizeLabel (lblGen segs)) segs [] = t := by simpa using ht
        subst htt
        intro u hu
        rw [mem_allNodes_iff] at hu
        rcases hu with rfl | ⟨c, hc, _⟩
        · exact ⟨hnd, fun hcon => absurd rfl hcon⟩
        · exact absurd hc (List.not_mem_nil c)
      · next ls hce =>
        split at ht
        · next hlen =>
          split at ht
          · next cs hseq =>
            have htt : MNode.mk cid (sanitizeLabel (lblGen segs)) segs cs = t := by
              simpa using ht
            subst htt
            have hmap := seqExcept_ok_elim _ _ hseq
            intro u hu
            rw [mem_allNodes_iff] at hu
            rcases hu with rfl | ⟨c, hc, hu2⟩
            · refine ⟨hnd, fun _ => ?_⟩
              have hmm : cs.map MNode.members = (pyUnique ls).map (selectByLabel segs ls) := by
                refine map_ok_map hmap MNode.members (selectByLabel segs ls) ?_
                intro lab c hlab
                exact (recursiveCluster_ok_shape fp lblGen mdb msb ratioQ f
                  (selectByLabel segs ls lab) (depth + 1) (cid ++ "_" ++ toString lab)
                  c hlab).1
              simp only [MNode.children, MNode.members]
              rw [hmm]
              exact select_flatten_perm segs ls hlen
            · obtain ⟨lab, _, hF⟩ := map_ok_mem hmap c (by simpa using hc)
              have hndc : (selectByLabel segs ls lab).Nodup :=
                (select_sublist segs ls lab hlen).nodup hnd
              exact ih (selectByLabel segs ls lab) (depth + 1)
                (cid ++ "_" ++ toString lab) c hndc hF u hu2
          · exact absurd ht (by simp)
        · exact absurd ht (by simp)

theorem rcw_leafA (cidv : String) :
    recursiveCluster fpModel (fun _ => "Topic") 3 2 0 2 [0] 2 cidv =
      .ok (.mk cidv (sanitizeLabel "Topic") [0] []) := by
  rw [recursiveCluster, show ([0] : List ℕ).length = 1 from rfl, calcParams_ratio_zero,
    if_pos (by decide)]

theorem rcw_leafB (cidv : String) :
    recursiveCluster fpModel (fun _ => "Topic") 3 2 0 2 [2] 2 cidv =
      .ok (.mk cidv (sanitizeLabel "Topic") [2] []) := by
  rw [recursiveCluster, show ([2] : List ℕ).length = 1 from rfl, calcParams_ratio_zero,
    if_pos (by decide)]

theorem rcw_leafC (cidv : String) :
    recursiveCluster fpModel (fun _ => "Topic") 3 2 0 3 [1] 1 cidv =
      .ok (.mk cidv (sanitizeLabel "Topic") [1] []) := by
  rw [recursiveCluster, show ([1] : List ℕ).length = 1 from rfl, calcParams_ratio_zero,
    if_pos (by decide)]

theorem rcw_node0 (cidv : String) :
    recursiveCluster fpModel (fun _ => "Topic") 3 2 0 3 [0, 2] 1 cidv =
      .ok (.mk cidv (sanitizeLabel "Topic") [0, 2]
        [.mk (cidv ++ "_" ++ toString 0) (sanitizeLabel "Topic") [0] [],
         .mk (cidv ++ "_" ++ toString 1) (sanitizeLabel "Topic") [2] []]) := by
  rw [recursiveCluster, show ([0, 2] : List ℕ).length = 2 from rfl, calcParams_ratio_zero,
    if_neg (by decide)]
  simp only [show clusterEmbeddings fpModel [0, 2] 1 = .ok [0, 1] from rfl,
    List.length_cons, List.length_nil,
    show pyUnique [0, 1] = [0, 1] from rfl, List.map_cons, List.map_nil,
    show selectByLabel [0, 2] [0, 1] 0 = [0] from rfl,
    show selectByLabel [0, 2] [0, 1] 1 = [2] from rfl,
    show (1 + 1 : ℕ) = 2 from rfl, if_true,
    rcw_leafA, rcw_leafB, seqExcept]

theorem rcw_root :
    recursiveCluster fpModel (fun _ => "Topic") 3 2 0 4 [0, 1, 2] 0 "root" = .ok rcwTree := by
  rw [recursiveCluster, show ([0, 1, 2] : List ℕ).length = 3 from rfl, calcParams_ratio_zero,
    if_neg (by decide)]
  simp only [show clusterEmbeddings fpModel [0, 1, 2] 0 = .ok [0, 1, 0] from rfl,
    List.length_cons, List.length_nil,
    show pyUnique [0, 1, 0] = [0, 1] from rfl, List.map_cons, List.map_nil,
    show selectByLabel [0, 1, 2] [0, 1, 0] 0 = [0, 2] from rfl,
    show selectByLabel [0, 1, 2] [0, 1, 0] 1 = [1] from rfl,
    show (0 + 1 : ℕ) = 1 from rfl, if_true,
    rcw_node0, rcw_leafC, seqExcept]
  rfl

/-- Witness for `recursive_cluster_member_partition` on the three-segment
build `rcwTree` (at its root node). -/
theorem recursive_cluster_member_partition_witness :
    rcwTree.members.Nodup ∧
    (rcwTree.children ≠ [] →
      ((rcwTree.children.map MNode.members).flatten).Perm rcwTree.members) :=
  recursive_cluster_member_partition fpModel (fun _ => "Topic") 3 2 0 4 [0, 1, 2] 0 "root"
    rcwTree (by decide) rcw_root rcwTree (self_mem_allNodes rcwTree)

/-- C6, confirmed: every node of a tree produced by the builder carries a
non-empty label of at most 10 words (the configured ceiling of
`_sanitize_label`), because every label — the generated one or the
deterministic fallback — passes through the `MindmapNode` constructor's
`_sanitize_label`; and in particular the sanitized deterministic fallback
label derived from the first member text also satisfies both bounds
(second conjunct). -/
theorem recursive_cluster_labels (fp : ℕ → List ℕ → Except Unit (List ℕ))
    (lblGen : List ℕ → String) (mdb msb : ℤ) (ratioQ : ℚ)
    (fuel : ℕ) (segs : List ℕ) (depth : ℕ) (cid : String) (t : MNode)
    (ht : recursiveCluster fp lblGen mdb msb ratioQ fuel segs depth cid = .ok t) :
    (∀ u ∈ allNodes t, u.label ≠ "" ∧ (pyWords u.label.toList).length ≤ 10) ∧
    (∀ texts : List String, sanitizeLabel (createFallbackLabel texts) ≠ "" ∧
      (pyWords (sanitizeLabel (createFallbackLabel texts)).toList).length ≤ 10) := by
  refine ⟨?_, fun texts => sanitizeLabel_spec (createFallbackLabel texts)⟩
  induction fuel generalizing segs depth cid t with
  | zero => exact absurd ht (by simp [recursiveCluster])
  | succ f ih =>
    rw [recursiveCluster] at ht
    split at ht
    · have htt : MNode.mk cid (sanitizeLabel (lblGen segs)) segs [] = t := by simpa using ht
      subst htt
      intro u hu
      rw [mem_allNodes_iff] at hu
      rcases hu with rfl | ⟨c, hc, _⟩
      · exact sanitizeLabel_spec (lblGen segs)
      · exact absurd hc (List.not_mem_nil c)
    · split at ht
      · have htt : MNode.mk cid (sanitizeLabel (lblGen segs)) segs [] = t := by simpa using ht
        subst htt
        intro u hu
        rw [mem_allNodes_iff] at hu
        rcases hu with rfl | ⟨c, hc, _⟩
        · exact sanitizeLabel_spec (lblGen segs)
        · exact absurd hc (List.not_mem_nil c)
      · next ls hce =>
        split at ht
        · next hlen =>
          split at ht
          · next cs hseq =>
            have htt : MNode.mk cid (sanitizeLabel (lblGen segs)) segs cs = t := by
              simpa using ht
            subst htt
            have hmap := seqExcept_ok_elim _ _ hseq
            intro u hu
            rw [mem_allNodes_iff] at hu
            rcases hu with rfl | ⟨c, hc, hu2⟩
            · exact sanitizeLabel_spec (lblGen segs)
            · obtain ⟨lab, _, hF⟩ := map_ok_mem hmap c (by simpa using hc)
              exact ih (selectByLabel segs ls lab) (depth + 1)
                (cid ++ "_" ++ toString lab) c hF u hu2
          · exact absurd ht (by simp)
        · exact absurd ht (by simp)

/-- Witness for `recursive_cluster_labels` on the three-segment build
`rcwTree`, at the root node and with the fallback on a concrete text. -/
theorem recursive_cluster_labels_witness :
    (rcwTree.label ≠ "" ∧ (pyWords rcwTree.label.toList).length ≤ 10) ∧
    (sanitizeLabel (createFallbackLabel ["a concrete first member text"]) ≠ "" ∧
      (pyWords (sanitizeLabel (createFallbackLabel
        ["a concrete first member text"])).toList).length ≤ 10) :=
  have h := recursive_cluster_labels fpModel (fun _ => "Topic") 3 2 0 4 [0, 1, 2] 0 "root"
    rcwTree rcw_root
  ⟨h.1 rcwTree (self_mem_allNodes rcwTree), h.2 ["a concrete first member text"]⟩

/-! ### C8 — script-presence validation -/

/-- C8, confirmed: when the expected language is the script-distinguishable
(non-Latin-script) case the code supports — Arabic, i.e.
`expected_language.lower() in ["arabic", "ar"]` — and the response contains
no character of the Arabic script block, `validate_response` returns False
regardless of any other quality signal: every earlier check that fires also
returns False, and otherwise the script-presence check fires. -/
theorem validate_response_rejects_missing_script (response lang : String)
    (hlang : isArabicLang lang = true)
    (hchars : ∀ c ∈ response.toList, isArabicChar c = false) :
    validateResponse response lang = false := by
  unfold validateResponse
  split
  · rfl
  · split
    · rfl
    · split
      · rfl
      · split
        · rfl
        · split
          · rfl
          · next h =>
            exfalso
            apply h
            have hany : response.toList.any isArabicChar = false := by
              rw [List.any_eq_false]
              intro c hc
              simp [hchars c hc]
            rw [hlang, hany]
            rfl

/-- Witness for `validate_response_rejects_missing_script`: a Latin-script
response when Arabic is expected. -/
theorem validate_response_rejects_missing_script_witness :
    ("Hello world".toList.any isArabicChar) = false ∧
    isArabicLang "Arabic" = true ∧
    validateResponse "Hello world" "Arabic" = false :=
  ⟨by decide, by decide,
    validate_response_rejects_missing_script "Hello world" "Arabic" (by decide) (by decide)⟩

/-! ### C4 — the Generation Validator and Retrier -/

theorem retryGo_ok_valid (provider : String → ℕ → Except String String)
    (prompt lang : String) (maxRetries : ℕ) :
    ∀ r i s, generateWithRetryGo provider prompt lang maxRetries r i = .ok s →
      validateResponse s lang = true := by
  intro r
  induction r with
  | zero =>
    intro i s h
    exact absurd h (by simp [generateWithRetryGo])
  | succ r ih =>
    intro i s h
    rw [generateWithRetryGo] at h
    cases hg : groqGenerate (provider prompt i) with
    | error e =>
      rw [hg] at h
      exact absurd h (by simp)
    | ok t =>
      rw [hg] at h
      dsimp only at h
      by_cases hv : validateResponse t lang = true
      · rw [if_pos hv] at h
        have : t = s := by simpa using h
        rw [← this]
        exact hv
      · rw [if_neg hv] at h
        exact ih (i + 1) s h

theorem retryGo_error_kind (provider : String → ℕ → Except String String)
    (prompt lang : String) (maxRetries : ℕ) :
    ∀ r i e, generateWithRetryGo provider prompt lang maxRetries r i = .error e →
      e.isLLMError = true := by
  intro r
  induction r with
  | zero =>
    intro i e h
    rw [generateWithRetryGo] at h
    have : PyExc.llmError (exhaustedMsg maxRetries lang) = e := by simpa using h
    rw [← this]
    rfl
  | succ r ih =>
    intro i e h
    rw [generateWithRetryGo] at h
    cases hg : groqGenerate (provider prompt i) with
    | error e2 =>
      rw [hg] at h
      have he2 : e2 = e := by simpa using h
      cases hp : provider prompt i with
      | ok raw => rw [show groqGenerate (provider prompt i) = .ok (cleanResponse raw) by
          rw [hp]; rfl] at hg; exact absurd hg (by simp)
      | error m =>
        rw [show groqGenerate (provider prompt i) =
          .error (.llmError ("Failed to generate completion: " ++ m)) by rw [hp]; rfl] at hg
        have : PyExc.llmError ("Failed to generate completion: " ++ m) = e2 := by
          simpa using hg
        rw [← he2, ← this]
        rfl
    | ok t =>
      rw [hg] at h
      dsimp only at h
      by_cases hv : validateResponse t lang = true
      · rw [if_pos hv] at h
        exact absurd h (by simp)
      · rw [if_neg hv] at h
        exact ih (i + 1) e h

theorem attemptsGo_le (provider : String → ℕ → Except String String)
    (prompt lang : String) :
    ∀ r i, attemptsUsedGo provider prompt lang r i ≤ r := by
  intro r
  induction r with
  | zero => intro i; simp [attemptsUsedGo]
  | succ r ih =>
    intro i
    rw [attemptsUsedGo]
    cases hg : groqGenerate (provider prompt i) with
    | error e =>
      dsimp only
      omega
    | ok t =>
      dsimp only
      by_cases hv : validateResponse t lang = true
      · rw [if_pos hv]
        omega
      · rw [if_neg hv]
        have := ih (i + 1)
        omega

theorem retryGo_exhaust (provider : String → ℕ → Except String String)
    (prompt lang : String) (maxRetries : ℕ) :
    ∀ r i, (∀ j, i ≤ j → j < i + r →
        okButInvalid (groqGenerate (provider prompt j)) lang = true) →
      generateWithRetryGo provider prompt lang maxRetries r i =
        .error (.llmError (exhaustedMsg maxRetries lang)) ∧
      attemptsUsedGo provider prompt lang r i = r := by
  intro r
  induction r with
  | zero => intro i _; exact ⟨rfl, rfl⟩
  | succ r ih =>
    intro i hall
    have hi := hall i (le_refl i) (by omega)
    rw [generateWithRetryGo, attemptsUsedGo]
    cases hg : groqGenerate (provider prompt i) with
    | error e =>
      rw [hg] at hi
      exact absurd hi (by simp [okButInvalid])
    | ok t =>
      rw [hg] at hi
      have hv : validateResponse t lang = false := by
        simpa [okButInvalid] using hi
      dsimp only
      rw [if_neg (by simp [hv]), if_neg (by simp [hv])]
      have := ih (i + 1) (fun j hj1 hj2 => hall j (by omega) (by omega))
      exact ⟨this.1, by omega⟩

/-- C4, counterexample: when the provider call itself fails on the first
attempt (modelled provider always raising "boom"), `generate_with_retry`
with `max_retries = 2` propagates the wrapped `LLMError` after a single
attempt — it does not re-issue the prompt the remaining 2 times and its
failure is not the distinct exhausted kind, so "fails only after exhausting
those retries (1 + maxRetries attempts total)" is false on the code. -/
theorem generate_with_retry_claim_counterexample :
    generateWithRetry (fun _ _ => .error "boom") "label prompt" "en" 2 =
      .error (.llmError ("Failed to generate completion: " ++ "boom")) ∧
    attemptsUsed (fun _ _ => .error "boom") "label prompt" "en" 2 = 1 ∧
    (PyExc.llmError ("Failed to generate completion: " ++ "boom") ≠
      PyExc.llmError (exhaustedMsg 2 "en")) ∧
    (1 : ℕ) ≠ 2 + 1 := by
  refine ⟨rfl, rfl, by decide, by decide⟩

/-- C4, amended: `generate_with_retry` returns a string only when it passes
every validation rule; every attempt issues the identical prompt and at
most `1 + maxRetries` attempts are made; when every one of the
`1 + maxRetries` attempts yields text that fails validation, it fails
after exactly `1 + maxRetries` attempts with the distinct exhausted
`LLMError` (never an empty string); and every failure that crosses this
boundary is an `LLMError` — never a raw provider exception, because
`generate` wraps those — but a generation failure propagates immediately,
so the retrier can also fail before exhausting its retries (the
counterexample's case). -/
theorem generate_with_retry_amended (provider : String → ℕ → Except String String)
    (prompt lang : String) (maxRetries : ℕ) :
    (∀ s, generateWithRetry provider prompt lang maxRetries = .ok s →
      validateResponse s lang = true) ∧
    (∀ e, generateWithRetry provider prompt lang maxRetries = .error e →
      e.isLLMError = true) ∧
    attemptsUsed provider prompt lang maxRetries ≤ maxRetries + 1 ∧
    ((∀ i, i ≤ maxRetries → okButInvalid (groqGenerate (provider prompt i)) lang = true) →
      generateWithRetry provider prompt lang maxRetries =
        .error (.llmError (exhaustedMsg maxRetries lang)) ∧
      attemptsUsed provider prompt lang maxRetries = maxRetries + 1) := by
  refine ⟨?_, ?_, ?_, ?_⟩
  · intro s h
    exact retryGo_ok_valid provider prompt lang maxRetries (maxRetries + 1) 0 s h
  · intro e h
    exact retryGo_error_kind provider prompt lang maxRetries (maxRetries + 1) 0 e h
  · exact attemptsGo_le provider prompt lang (maxRetries + 1) 0
  · intro hall
    exact retryGo_exhaust provider prompt lang maxRetries (maxRetries + 1) 0
      (fun j hj1 hj2 => hall j (by omega))

/-- Witness for `generate_with_retry_amended`: a provider that always
returns an empty (hence invalid) completion with `max_retries = 1` is
retried exactly twice and fails with the exhausted `LLMError`. -/
theorem generate_with_retry_amended_witness :
    generateWithRetry (fun _ _ => .ok "") "p" "Arabic" 1 =
      .error (.llmError (exhaustedMsg 1 "Arabic")) ∧
    attemptsUsed (fun _ _ => .ok "") "p" "Arabic" 1 = 1 + 1 :=
  (generate_with_retry_amended (fun _ _ => .ok "") "p" "Arabic" 1).2.2.2
    (fun i _ => by decide)

/-! ### C7 lemmas -/

theorem mem_potentialTargets (sim : ℕ → ℕ → ℚ) (th : ℚ) (n i : ℕ) (tj : ℕ × ℚ)
    (h : tj ∈ potentialTargets sim th n i) :
    tj.1 < n ∧ i ≠ tj.1 ∧ th ≤ sim i tj.1 ∧ tj.2 = sim i tj.1 := by
  unfold potentialTargets at h
  obtain ⟨j, hj, hf⟩ := List.mem_filterMap.mp h
  by_cases hc : i ≠ j ∧ th ≤ sim i j
  · rw [if_pos hc] at hf
    have : (j, sim i j) = tj := by simpa using hf
    rw [← this]
    exact ⟨List.mem_range.mp hj, hc.1, hc.2, rfl⟩
  · rw [if_neg hc] at hf
    exact absurd hf (by simp)

theorem mem_selected_mem_potential (sim : ℕ → ℕ → ℚ) (th : ℚ) (n i maxRel : ℕ)
    (tj : ℕ × ℚ)
    (h : tj ∈ ((potentialTargets sim th n i).mergeSort
      (fun x y => decide (y.2 ≤ x.2))).take maxRel) :
    tj ∈ potentialTargets sim th n i := by
  have h1 : tj ∈ (potentialTargets sim th n i).mergeSort (fun x y => decide (y.2 ≤ x.2)) :=
    (List.take_sublist maxRel _).mem h
  exact (List.mergeSort_perm (potentialTargets sim th n i) _).mem_iff.mp h1

theorem filter_flatMap_eq (l : List ℕ) (f : ℕ → List Relationship)
    (q : Relationship → Bool) :
    (l.flatMap f).filter q = l.flatMap (fun a => (f a).filter q) := by
  induction l with
  | nil => rfl
  | cons a l ih => simp [List.flatMap_cons, List.filter_append, ih]

theorem flatMap_if_singleton (I : List ℕ) (i : ℕ) (B : List Relationship)
    (hnd : I.Nodup) :
    I.flatMap (fun j => if j = i then B else []) = if i ∈ I then B else [] := by
  induction I with
  | nil => rfl
  | cons a I ih =>
    rw [List.flatMap_cons, ih hnd.of_cons]
    by_cases ha : a = i
    · subst ha
      have hni : a ∉ I := (List.nodup_cons.mp hnd).1
      rw [if_pos rfl, if_neg hni, if_pos (List.mem_cons_self a I)]
      simp
    · rw [if_neg ha]
      by_cases hi : i ∈ I
      · simp [hi, ha]
      · have : i ∉ a :: I := by
          intro hmem
          rcases List.mem_cons.mp hmem with h1 | h1
          · exact ha h1.symm
          · exact hi h1
        simp [hi, this]

theorem clusterConcepts_map_index (labels : List ℕ) (texts : List String) (lab : ℕ) :
    (clusterConceptsFor labels texts lab).map ConceptEntry.index =
      (List.range labels.length).filter (fun i => labels.getD i 0 == lab) := by
  unfold clusterConceptsFor
  induction (List.range labels.length) with
  | nil => rfl
  | cons a l ih =>
    rw [List.filterMap_cons, List.filter_cons]
    by_cases hc : labels.getD a 0 = lab
    · rw [if_pos hc]
      simp only [List.map_cons, ih]
      rw [if_pos (by simpa using hc)]
    · rw [if_neg hc]
      rw [if_neg (by simpa using hc)]
      exact ih

theorem clusterConcepts_index_nodup (labels : List ℕ) (texts : List String) (lab : ℕ) :
    ((clusterConceptsFor labels texts lab).map ConceptEntry.index).Nodup := by
  rw [clusterConcepts_map_index]
  exact (List.nodup_range _).filter _

theorem getD_index_ne (cps : List ConceptEntry)
    (hnd : (cps.map ConceptEntry.index).Nodup)
    (i j : ℕ) (hi : i < cps.length) (hj : j < cps.length) (hij : i ≠ j) :
    (cps.getD i ⟨0, ""⟩).index ≠ (cps.getD j ⟨0, ""⟩).index := by
  intro hcon
  apply hij
  have hmi : i < (cps.map ConceptEntry.index).length := by simpa using hi
  have hmj : j < (cps.map ConceptEntry.index).length := by simpa using hj
  have hgi : (cps.map ConceptEntry.index)[i] = (cps.getD i ⟨0, ""⟩).index := by
    rw [List.getElem_map, List.getD_eq_getElem cps _ hi]
  have hgj : (cps.map ConceptEntry.index)[j] = (cps.getD j ⟨0, ""⟩).index := by
    rw [List.getElem_map, List.getD_eq_getElem cps _ hj]
  have := hnd.getElem_inj_iff.mp (hgi.trans (hcon.trans hgj.symm))
  exact this

theorem flatMap_congr_mem (l : List ℕ) (f g : ℕ → List Relationship)
    (h : ∀ a ∈ l, f a = g a) : l.flatMap f = l.flatMap g := by
  induction l with
  | nil => rfl
  | cons a l ih =>
    rw [List.flatMap_cons, List.flatMap_cons, h a (List.mem_cons_self a l),
      ih (fun b hb => h b (List.mem_cons_of_mem a hb))]

theorem mergeSort_desc (l : List (ℕ × ℚ)) :
    (l.mergeSort (fun x y => decide (y.2 ≤ x.2))).Pairwise
      (fun x y => decide (y.2 ≤ x.2) = true) := by
  apply List.sorted_mergeSort
  · intro a b c hab hbc
    simp only [decide_eq_true_eq] at *
    exact le_trans hbc hab
  · intro a b
    simp only [Bool.or_eq_true, decide_eq_true_eq]
    exact le_total b.2 a.2

theorem extractCluster_sound (sim : ℕ → ℕ → ℚ) (th : ℚ) (maxRel : ℕ)
    (cps : List ConceptEntry) (cid : ℕ)
    (hth : 0 ≤ th) (hsim : ∀ i j, sim i j ≤ 1)
    (hnd : (cps.map ConceptEntry.index).Nodup) :
    (∀ rel ∈ extractClusterRelationships sim th maxRel cps cid,
      rel.sourceLocalIndex ≠ rel.targetLocalIndex ∧
      rel.sourceConceptIndex ≠ rel.targetConceptIndex ∧
      th ≤ rel.confidenceScore ∧ 0 ≤ rel.confidenceScore ∧ rel.confidenceScore ≤ 1) ∧
    ∀ i : ℕ,
      ((extractClusterRelationships sim th maxRel cps cid).filter
          (fun rel => rel.sourceLocalIndex == i)).length ≤ maxRel ∧
      List.Pairwise (fun a b : ℚ => b ≤ a)
        (((extractClusterRelationships sim th maxRel cps cid).filter
          (fun rel => rel.sourceLocalIndex == i)).map Relationship.confidenceScore) := by
  unfold extractClusterRelationships
  by_cases hlen : cps.length < 2
  · rw [if_pos hlen]
    exact ⟨fun rel h => absurd h (List.not_mem_nil rel), fun i => ⟨by simp, by simp⟩⟩
  · rw [if_neg hlen]
    constructor
    · intro rel hrel
      obtain ⟨i, hi, hrel2⟩ := List.mem_flatMap.mp hrel
      obtain ⟨tj, htj, hrel3⟩ := List.mem_map.mp hrel2
      obtain ⟨htjlt, hne, hth2, heq⟩ := mem_potentialTargets sim th cps.length i tj
        (mem_selected_mem_potential sim th cps.length i maxRel tj htj)
      rw [← hrel3]
      exact ⟨hne, getD_index_ne cps hnd i tj.1 (List.mem_range.mp hi) htjlt hne,
        heq.symm ▸ hth2, le_trans hth (heq.symm ▸ hth2), heq.symm ▸ hsim i tj.1⟩
    · intro i
      rw [filter_flatMap_eq]
      rw [flatMap_congr_mem (List.range cps.length) _
        (fun a => if a = i then
          (((potentialTargets sim th cps.length i).mergeSort
              (fun x y => decide (y.2 ≤ x.2))).take maxRel).map (fun tj =>
            { sourceConceptIndex := (cps.getD i ⟨0, ""⟩).index
              targetConceptIndex := (cps.getD tj.1 ⟨0, ""⟩).index
              sourceLocalIndex := i
              targetLocalIndex := tj.1
              confidenceScore := tj.2
              relationshipType := "semantic_similarity"
              clusterId := cid
              sourceText := pyTruncText (cps.getD i ⟨0, ""⟩).text
              targetText := pyTruncText (cps.getD tj.1 ⟨0, ""⟩).text }) else [])
        ?_]
      · rw [flatMap_if_singleton _ i _ (List.nodup_range _)]
        by_cases hi : i ∈ List.range cps.length
        · rw [if_pos hi]
          constructor
          · rw [List.length_map, List.length_take]
            exact min_le_left _ _
          · rw [List.map_map, List.pairwise_map]
            exact (List.Pairwise.sublist (List.take_sublist maxRel _)
              (mergeSort_desc (potentialTargets sim th cps.length i))).imp
              (fun h => of_decide_eq_true h)
        · rw [if_neg hi]
          exact ⟨by simp, by simp⟩
      · intro a ha
        dsimp only
        by_cases hai : a = i
        · subst hai
          rw [if_pos rfl]
          apply List.filter_eq_self.mpr
          intro rel hrel
          obtain ⟨tj, htj, hrel2⟩ := List.mem_map.mp hrel
          rw [← hrel2]
          exact beq_self_eq_true a
        · rw [if_neg hai]
          apply List.filter_eq_nil_iff.mpr
          intro rel hrel
          obtain ⟨tj, htj, hrel2⟩ := List.mem_map.mp hrel
          rw [← hrel2]
          simpa using hai

/-- **C7** (Relationship Extractor): under the similarity-matrix contract
(cosine similarities are at most 1) and a non-negative configured
threshold, every cluster entry emitted by `extract_relationships`
satisfies: a cluster with fewer than 2 members emits no relationships;
every emitted relationship has distinct source and target (both as local
and as global concept indices) and a confidence score in `[0, 1]` that is
at least the similarity threshold; and for each source member at most
`maxRel` relationships are emitted, listed in descending confidence
order. -/
theorem extract_relationships_sound (gsim : ℕ → ℕ → ℚ) (th : ℚ) (maxRel : ℕ)
    (labels : List ℕ) (texts : List String)
    (hth : 0 ≤ th) (hsim : ∀ a b, gsim a b ≤ 1) :
    ∀ p ∈ extractRelationships gsim th maxRel labels texts,
      ((clusterConceptsFor labels texts p.1).length < 2 → p.2 = []) ∧
      (∀ rel ∈ p.2,
        rel.sourceLocalIndex ≠ rel.targetLocalIndex ∧
        rel.sourceConceptIndex ≠ rel.targetConceptIndex ∧
        th ≤ rel.confidenceScore ∧ 0 ≤ rel.confidenceScore ∧ rel.confidenceScore ≤ 1) ∧
      ∀ i : ℕ,
        (p.2.filter (fun rel => rel.sourceLocalIndex == i)).length ≤ maxRel ∧
        List.Pairwise (fun a b : ℚ => b ≤ a)
          ((p.2.filter (fun rel => rel.sourceLocalIndex == i)).map
            Relationship.confidenceScore) := by
  intro p hp
  unfold extractRelationships at hp
  obtain ⟨lab, hlab, hpe⟩ := List.mem_map.mp hp
  dsimp only at hpe
  by_cases hlen : (clusterConceptsFor labels texts lab).length < 2
  · rw [if_pos hlen] at hpe
    rw [← hpe]
    exact ⟨fun _ => rfl, fun rel h => absurd h (List.not_mem_nil rel),
      fun i => ⟨by simp, by simp⟩⟩
  · rw [if_neg hlen] at hpe
    rw [← hpe]
    have hmain := extractCluster_sound
      (fun i j => gsim ((clusterConceptsFor labels texts lab).getD i ⟨0, ""⟩).index
        (((clusterConceptsFor labels texts lab).getD j ⟨0, ""⟩).index)) th maxRel
      (clusterConceptsFor labels texts lab) lab hth (fun i j => hsim _ _)
      (clusterConcepts_index_nodup labels texts lab)
    exact ⟨fun hcon => absurd hcon hlen, hmain.1, hmain.2⟩

/-- Witness for C7 at a concrete two-concept input with a constant
similarity matrix and threshold 0. -/
theorem extract_relationships_sound_witness :
    (0 ≤ (0 : ℚ)) ∧ (∀ a b : ℕ, (fun _ _ => (1 : ℚ)) a b ≤ 1) ∧
    ∀ p ∈ extractRelationships (fun _ _ => (1 : ℚ)) 0 1 [0, 0] ["s", "t"],
      ((clusterConceptsFor [0, 0] ["s", "t"] p.1).length < 2 → p.2 = []) ∧
      (∀ rel ∈ p.2,
        rel.sourceLocalIndex ≠ rel.targetLocalIndex ∧
        rel.sourceConceptIndex ≠ rel.targetConceptIndex ∧
        (0 : ℚ) ≤ rel.confidenceScore ∧ 0 ≤ rel.confidenceScore ∧
          rel.confidenceScore ≤ 1) ∧
      ∀ i : ℕ,
        (p.2.filter (fun rel => rel.sourceLocalIndex == i)).length ≤ 1 ∧
        List.Pairwise (fun a b : ℚ => b ≤ a)
          ((p.2.filter (fun rel => rel.sourceLocalIndex == i)).map
            Relationship.confidenceScore) :=
  ⟨le_refl 0, fun _ _ => le_refl 1,
    extract_relationships_sound (fun _ _ => 1) 0 1 [0, 0] ["s", "t"]
      (le_refl 0) (fun _ _ => le_refl 1)⟩

/-- **C9** (Root Namer): `generate_tree_name` is total — for every
enriched tree, target language, provider behaviour and parser behaviour
it returns a definite pair, either the fixed fallback or the parsed
title/summary (the catch-all `except` means it never raises); when the
provider call itself fails (`generate` swallows the exception and returns
`None`) it returns the fallback pair, and when no well-formed structured
result (a JSON dict) can be located in the raw response it also returns
the fallback pair: the fixed "Untitled Mindmap" title and
"no overview available" message, each parameterized by the target
language; and when a dict is located it returns that dict's title and
summary entries. -/
theorem generate_tree_name_fallback (provider : String → Option String)
    (loads : String → Option PyVal) (tree : TNode) (lang : String) :
    (generateTreeName provider loads tree lang = fallbackPair lang ∨
      ∃ kvs, generateTreeName provider loads tree lang =
        (pyDictGet kvs "title" (PyVal.str "Untitled Mindmap"),
         pyDictGet kvs "summary" (PyVal.str "No overview available."))) ∧
    (provider (treeNamerPrompt tree lang) = none →
      generateTreeName provider loads tree lang = fallbackPair lang) ∧
    (∀ raw, provider (treeNamerPrompt tree lang) = some raw →
      (∀ kvs, locateStructured loads (String.mk (pyStrip raw.toList)) ≠
        some (PyVal.dict kvs)) →
      generateTreeName provider loads tree lang = fallbackPair lang) ∧
    (∀ raw kvs, provider (treeNamerPrompt tree lang) = some raw →
      locateStructured loads (String.mk (pyStrip raw.toList)) =
        some (PyVal.dict kvs) →
      generateTreeName provider loads tree lang =
        (pyDictGet kvs "title" (PyVal.str "Untitled Mindmap"),
         pyDictGet kvs "summary" (PyVal.str "No overview available."))) := by
  refine ⟨?_, ?_, ?_, ?_⟩
  · unfold generateTreeName
    cases hp : provider (treeNamerPrompt tree lang) with
    | none => exact Or.inl rfl
    | some raw =>
      dsimp only
      cases hl : locateStructured loads (String.mk (pyStrip raw.toList)) with
      | none => exact Or.inl rfl
      | some d =>
        cases d with
        | dict kvs => exact Or.inr ⟨kvs, rfl⟩
        | str s => exact Or.inl rfl
        | other => exact Or.inl rfl
  · intro hp
    unfold generateTreeName
    rw [hp]
  · intro raw hp hno
    unfold generateTreeName
    rw [hp]
    dsimp only
    cases hl : locateStructured loads (String.mk (pyStrip raw.toList)) with
    | none => rfl
    | some d =>
      cases d with
      | dict kvs => exact absurd hl (hno kvs)
      | str s => rfl
      | other => rfl
  · intro raw kvs hp hl
    unfold generateTreeName
    rw [hp]
    dsimp only
    rw [hl]

/-- Witness for C9 at a concrete instantiation: a provider whose call
failed (returning `None`) yields the fallback pair. -/
theorem generate_tree_name_fallback_witness :
    (fun _ : String => (none : Option String))
        (treeNamerPrompt (TNode.mk none none []) "Arabic") = none ∧
    generateTreeName (fun _ => none) (fun _ => none)
        (TNode.mk none none []) "Arabic" = fallbackPair "Arabic" :=
  ⟨rfl, (generate_tree_name_fallback (fun _ => none) (fun _ => none)
    (TNode.mk none none []) "Arabic").2.1 rfl⟩
